import Mathlib

/- Verification of the fluxmark streaming Markdown parser core
   (packages/core/src/parser.ts and utils/hash.ts), via a shallow
   embedding.  JavaScript strings are modelled as lists of characters
   (`JSStr`); where JavaScript semantics depend on UTF-16 code units
   (charCodeAt, .length) we convert explicitly.  Wall-clock reads
   (Date.now()) are modelled by an explicit `now : Nat` argument, and the
   module-level mutable `IMAGE_REGEX.lastIndex` by an explicit `Nat`
   threaded next to the parser state. -/

namespace Fluxmark

/-- JavaScript string, modelled as a list of characters. -/
abbrev JSStr := List Char

/-- Embed a Lean string literal. -/
def strOf (s : String) : JSStr := s.data

/-- UTF-16 code units of a string (JS charCodeAt view). -/
def utf16CodeUnits (s : JSStr) : List Nat :=
  (s.map (fun c =>
    let n := c.toNat
    if n < 65536 then [n]
    else [55296 + (n - 65536) / 1024, 56320 + (n - 65536) % 1024])).flatten

/-- JS `.length` (number of UTF-16 code units). -/
def jsLength (s : JSStr) : Nat := (utf16CodeUnits s).length

/-- Characters matched by JS `\s` and trimmed by `String.prototype.trim`. -/
def jsWhitespaceChar (c : Char) : Bool :=
  c.toNat ∈ [9, 10, 11, 12, 13, 32, 160, 5760, 8192, 8193, 8194, 8195, 8196,
    8197, 8198, 8199, 8200, 8201, 8202, 8232, 8233, 8239, 8287, 12288, 65279]

/-- JS `!s.trim()`: true iff every character is whitespace (or s empty). -/
def jsTrimmedEmpty (s : JSStr) : Bool := s.all jsWhitespaceChar

/-- Line terminator characters, which JS regex `.` does not match. -/
def jsLineTerminator (c : Char) : Bool := c.toNat ∈ [10, 13, 8232, 8233]

/-- JS regex `\w` (ASCII word character). -/
def jsWordChar (c : Char) : Bool :=
  (97 ≤ c.toNat && c.toNat ≤ 122) || (65 ≤ c.toNat && c.toNat ≤ 90) ||
  (48 ≤ c.toNat && c.toNat ≤ 57) || c.toNat == 95

/-- JS regex `\d` (ASCII digit). -/
def jsDigitChar (c : Char) : Bool := 48 ≤ c.toNat && c.toNat ≤ 57

/-- JS `String.prototype.startsWith`. -/
def jsStartsWith (s pre : JSStr) : Bool := pre.isPrefixOf s

/-- JS `String.prototype.endsWith` for a single character. -/
def jsEndsWith (s : JSStr) (c : Char) : Bool :=
  match s.getLast? with
  | some d => d == c
  | none => false

/-- JS `String.prototype.split` on a single separator character. -/
def jsSplit (sep : Char) : JSStr → List JSStr
  | [] => [[]]
  | c :: cs =>
    match jsSplit sep cs with
    | [] => [[]]
    | h :: t => if c = sep then [] :: h :: t else (c :: h) :: t

/-- JS `Array.prototype.join('\n')`. -/
def joinNl (ls : List JSStr) : JSStr := List.intercalate [Char.ofNat 10] ls

/-- One decimal digit character. -/
def decDigit (n : Nat) : Char := Char.ofNat (48 + n)

/-- One lowercase hexadecimal digit character. -/
def hexDigit (n : Nat) : Char :=
  if n < 10 then Char.ofNat (48 + n) else Char.ofNat (97 + (n - 10))

/-- Digits of `n` in the given base, most significant first (fuel-bounded
structural recursion; fuel 30 suffices for every number below base^30). -/
def natDigitsFuel (base : Nat) (digitOf : Nat → Char) : Nat → Nat → JSStr
  | 0, _ => []
  | fuel + 1, n =>
    if n < base then [digitOf n]
    else natDigitsFuel base digitOf fuel (n / base) ++ [digitOf (n % base)]

/-- JS `Number.prototype.toString(10)` for naturals. -/
def natToDec (n : Nat) : JSStr := natDigitsFuel 10 decDigit 30 n

/-- JS `Number.prototype.toString(16)` for naturals. -/
def natToHexVar (n : Nat) : JSStr := natDigitsFuel 16 hexDigit 30 n

/-- `toString(16).padStart(8, '0')` for a 32-bit value. -/
def toHex8 (n : Nat) : JSStr :=
  let s := natToHexVar n
  List.replicate (8 - s.length) '0' ++ s

/-- Truncation to 32 bits (the implicit ToUint32/ToInt32 residue). -/
def mask32 (n : Nat) : Nat := n % 4294967296

/-- `Math.imul`, on unsigned 32-bit residues. -/
def imul32 (a b : Nat) : Nat := mask32 (a * b)

/-- 32-bit rotate left `(x << k) | (x >>> (32 - k))` for `x < 2^32`. -/
def rotl32 (x k : Nat) : Nat := mask32 (x <<< k) ||| (x >>> (32 - k))

/-- The block loop of murmurHash3: consumes the code units in groups of
four, returning the mixed state and the remaining (< 4) units. -/
def murmurCore (h : Nat) : List Nat → Nat × List Nat
  | u0 :: u1 :: u2 :: u3 :: rest =>
    let k1 := (u0 % 256) ||| ((u1 % 256) <<< 8) ||| ((u2 % 256) <<< 16) |||
      ((u3 % 256) <<< 24)
    let k1 := imul32 k1 3432918353
    let k1 := rotl32 k1 15
    let k1 := imul32 k1 461845907
    let h1 := h ^^^ k1
    let h1 := rotl32 h1 13
    let h1 := mask32 (imul32 h1 5 + 3864292196)
    murmurCore h1 rest
  | rest => (h, rest)

/-- The tail switch of murmurHash3 (remaining 0–3 code units). -/
def murmurTail (h : Nat) : List Nat → Nat
  | [a, b, c] =>
    let k1 := (0 ^^^ ((c % 256) <<< 16)) ^^^ ((b % 256) <<< 8) ^^^ (a % 256)
    let k1 := imul32 k1 3432918353
    let k1 := rotl32 k1 15
    let k1 := imul32 k1 461845907
    h ^^^ k1
  | [a, b] =>
    let k1 := (0 ^^^ ((b % 256) <<< 8)) ^^^ (a % 256)
    let k1 := imul32 k1 3432918353
    let k1 := rotl32 k1 15
    let k1 := imul32 k1 461845907
    h ^^^ k1
  | [a] =>
    let k1 := 0 ^^^ (a % 256)
    let k1 := imul32 k1 3432918353
    let k1 := rotl32 k1 15
    let k1 := imul32 k1 461845907
    h ^^^ k1
  | _ => h

/-- The finalization mix of murmurHash3. -/
def murmurFinal (h : Nat) (len : Nat) : Nat :=
  let h1 := h ^^^ mask32 len
  let h1 := h1 ^^^ (h1 >>> 16)
  let h1 := imul32 h1 2246822507
  let h1 := h1 ^^^ (h1 >>> 13)
  let h1 := imul32 h1 3266489909
  h1 ^^^ (h1 >>> 16)

/-- MurmurHash3 (32-bit) over the string's UTF-16 code units masked to
their low byte, formatted as 8 lowercase hex digits — src/utils/hash.ts
`murmurHash3`. -/
def murmurHash3 (key : JSStr) (seed : Nat := 0) : JSStr :=
  let units := utf16CodeUnits key
  let (h, rem) := murmurCore seed units
  toHex8 (murmurFinal (murmurTail h rem) units.length)

/-- Round an integer to the nearest representable IEEE-754 binary64 value
(53-bit mantissa, ties to even); JS addition applies this implicitly. -/
def roundNat53 (a : Nat) : Nat :=
  let bits := Nat.log2 a + 1
  let k := bits - 53
  if k = 0 then a
  else
    let p := 2 ^ k
    let q := a / p
    let r := a % p
    let half := p / 2
    if r < half then q * p
    else if half < r then (q + 1) * p
    else if q % 2 = 0 then q * p else (q + 1) * p

/-- IEEE-754 rounding of an integer-valued JS number. -/
def jsRound53 (n : Int) : Int :=
  if n.natAbs < 9007199254740992 then n
  else if n < 0 then -(Int.ofNat (roundNat53 n.natAbs))
  else Int.ofNat (roundNat53 n.natAbs)

/-- JS `+` on integer-valued numbers (exact addition then rounding). -/
def jsAdd (a b : Int) : Int := jsRound53 (a + b)

/-- JS ToInt32. -/
def jsToInt32 (n : Int) : Int :=
  let m := n.emod 4294967296
  if m < 2147483648 then m else m - 4294967296

/-- JS `<<` (left shift of a number, producing a signed 32-bit result). -/
def jsShl32 (n : Int) (k : Nat) : Int := jsToInt32 (n * (2 : Int) ^ k)

/-- djb2 hash — src/utils/hash.ts `djb2`; `hash` is a JS number, so only
the shifted summand is truncated to 32 bits each round and the final
`>>> 0` reduces the accumulated value. -/
def djb2 (key : JSStr) : JSStr :=
  let units := utf16CodeUnits key
  let hash := units.foldl
    (fun h c => jsAdd (jsAdd (jsShl32 h 5) h) (Int.ofNat c)) (5381 : Int)
  natToHexVar (hash.emod 4294967296).toNat

/-- Hash algorithm selection (ParserOptions.hashAlgorithm). -/
inductive HashAlg
  | murmur3
  | djb2
deriving DecidableEq, Repr

/-- Dispatch on the configured hash algorithm. -/
def hashOf (alg : HashAlg) (s : JSStr) : JSStr :=
  match alg with
  | HashAlg.murmur3 => murmurHash3 s
  | HashAlg.djb2 => djb2 s

/-- src/utils/hash.ts `generateFragmentKey`; `now` stands for the
`Date.now()` read in the temporary-key branch. -/
def generateFragmentKey (content : JSStr) (index : Nat) (isComplete : Bool)
    (alg : HashAlg) (now : Nat) : JSStr :=
  if isComplete then
    strOf "frag-" ++ hashOf alg content
  else
    strOf "temp-" ++ natToDec index ++ ['-'] ++ natToDec (jsLength content) ++
      ['-'] ++ natToDec now

/-- ParserOptions.incompleteCodeStrategy. -/
inductive CodeStrategy
  | line
  | char
  | noneStrategy
deriving DecidableEq, Repr

/-- Parser construction options (src/packages/core/src/parser.ts); the
constructor defaults are `line`, `murmur3`, `false`. -/
structure ParserOptions where
  incompleteCodeStrategy : CodeStrategy := CodeStrategy.line
  hashAlgorithm : HashAlg := HashAlg.murmur3
  preloadImages : Bool := false
deriving DecidableEq, Repr

/-- Fragment type tags (src/packages/core/src/types). -/
inductive FragmentType
  | heading
  | paragraph
  | codeblock
  | list
  | listItem
  | blockquote
  | image
  | thematicBreak
  | html
  | table
  | incomplete
deriving DecidableEq, Repr

/-- Per-line record of a streaming code block (CodeBlockData.lines). -/
structure CodeLine where
  content : JSStr
  lineNumber : Nat
  isComplete : Bool
deriving DecidableEq, Repr

/-- Type-tagged fragment payload (FragmentData union). -/
inductive FragmentData
  | headingData (level : Nat) (content : JSStr)
  | codeBlockData (lang : JSStr) (code : JSStr) (lines : List CodeLine)
  | paragraphData (content : JSStr) (hasInlineImages : Bool)
  | imageData (alt : JSStr) (src : JSStr) (title : Option JSStr)
  | defaultData (content : JSStr) (level : Nat)
deriving DecidableEq, Repr

/-- Source position of a fragment (`end` renamed to `endPos`). -/
structure SourcePosition where
  start : Nat
  endPos : Nat
  line : Nat
  column : Nat
deriving DecidableEq, Repr

/-- Fragment provenance metadata. -/
structure FragmentMeta where
  createdAt : Nat
  updatedAt : Nat
  updateCount : Nat
  fromStreaming : Bool
deriving DecidableEq, Repr

/-- A parsed fragment (the optional `children` field is never set by the
core parser and is omitted). -/
structure Fragment where
  key : JSStr
  type : FragmentType
  rawContent : JSStr
  isComplete : Bool
  position : SourcePosition
  data : FragmentData
  meta : FragmentMeta
deriving DecidableEq, Repr

/-- Parser state (ParserState); `lastProcessedLineIndex` is declared in
the source but never updated after construction. -/
structure ParserState where
  buffer : JSStr
  fragments : List Fragment
  currentFragment : Option Fragment
  position : Nat
  line : Nat
  column : Nat
  lastProcessedLineIndex : Nat
deriving DecidableEq, Repr

/-- The freshly-constructed (and reset) parser state. -/
def initialState : ParserState :=
  { buffer := [], fragments := [], currentFragment := none, position := 0,
    line := 1, column := 1, lastProcessedLineIndex := 0 }

/-- Test of the codeblock start regex (three backticks, then `(\w*)`). -/
def codeblockStartTest (l : JSStr) : Bool := jsStartsWith l (strOf "```")

/-- Language capture of the codeblock start regex: the maximal word-char
run after the three backticks (empty when the regex does not match,
mirroring `match?.[1] || ''`). -/
def codeblockLang (l : JSStr) : JSStr :=
  if codeblockStartTest l then (l.drop 3).takeWhile jsWordChar else []

/-- Backtracking search for the heading regex suffix `\s+(.+)$`: try the
whitespace run from length `w` downwards; `.` excludes line terminators. -/
def headingTailAt (r : JSStr) : Nat → Option JSStr
  | 0 => none
  | w + 1 =>
    let rest := r.drop (w + 1)
    if rest ≠ [] ∧ rest.all (fun c => !jsLineTerminator c) then some rest
    else headingTailAt r w

/-- Full match of the heading regex `^(#{1,6})\s+(.+)$`, returning the
two capture groups (level run length, heading text). -/
def headingMatch (l : JSStr) : Option (Nat × JSStr) :=
  let hashes := l.takeWhile (fun c => c = '#')
  let k := hashes.length
  if 1 ≤ k ∧ k ≤ 6 then
    let r := l.drop k
    match headingTailAt r (r.takeWhile jsWhitespaceChar).length with
    | some txt => some (k, txt)
    | none => none
  else none

/-- Test of the heading start pattern. -/
def headingTest (l : JSStr) : Bool := (headingMatch l).isSome

/-- Test of the list start pattern `^([\s]*)([-*+]|\d+\.)\s`. -/
def listTest (l : JSStr) : Bool :=
  let r := l.dropWhile jsWhitespaceChar
  match r with
  | c :: rest =>
    if c = '-' ∨ c = '*' ∨ c = '+' then
      match rest with
      | d :: _ => jsWhitespaceChar d
      | [] => false
    else
      let ds := r.takeWhile jsDigitChar
      if ds = [] then false
      else
        match r.dropWhile jsDigitChar with
        | '.' :: d :: _ => jsWhitespaceChar d
        | _ => false
  | [] => false

/-- Test of the blockquote start pattern `^>(\s*)`. -/
def blockquoteTest (l : JSStr) : Bool :=
  match l with
  | c :: _ => c = '>'
  | [] => false

/-- Test of the thematic break pattern `^(-{3,}|\*{3,}|_{3,})\s*$`. -/
def thematicBreakTest (l : JSStr) : Bool :=
  match l with
  | c :: _ =>
    if c = '-' ∨ c = '*' ∨ c = '_' then
      let run := l.takeWhile (fun d => d = c)
      3 ≤ run.length ∧ (l.drop run.length).all jsWhitespaceChar
    else false
  | [] => false

/-- Test of the paragraph start pattern: two negative lookaheads, so the
line is not all-whitespace and its first character is not one of
`#`, `>`, backtick, `-`, `|`. -/
def paragraphTest (l : JSStr) : Bool :=
  match l with
  | c :: _ =>
    !jsTrimmedEmpty l &&
      !(c = '#' ∨ c = '>' ∨ c = '`' ∨ c = '-' ∨ c = '|')
  | [] => false

/-- One entry of the static BLOCK_PATTERNS table (the unused `endPattern`
field is omitted). -/
structure BlockPattern where
  type : FragmentType
  startTest : JSStr → Bool
  isSingleLine : Bool
  canContainImages : Bool

/-- The ordered BLOCK_PATTERNS table. -/
def BLOCK_PATTERNS : List BlockPattern :=
  [ { type := FragmentType.codeblock, startTest := codeblockStartTest,
      isSingleLine := false, canContainImages := false },
    { type := FragmentType.heading, startTest := headingTest,
      isSingleLine := true, canContainImages := true },
    { type := FragmentType.list, startTest := listTest,
      isSingleLine := false, canContainImages := true },
    { type := FragmentType.blockquote, startTest := blockquoteTest,
      isSingleLine := false, canContainImages := true },
    { type := FragmentType.thematicBreak, startTest := thematicBreakTest,
      isSingleLine := true, canContainImages := false },
    { type := FragmentType.paragraph, startTest := paragraphTest,
      isSingleLine := false, canContainImages := true } ]

/-- `BLOCK_PATTERNS.find(p => p.startPattern.test(line))`. -/
def findBlockPattern (l : JSStr) : Option BlockPattern :=
  BLOCK_PATTERNS.find? (fun p => p.startTest l)

/-- Attempt to match the image regex
`!\[([^\]]*)\]\(([^\s)]+)(?:\s+"([^"]*)")?\)` at the head of `t`,
returning the matched text, the three capture groups and the remainder of
`t`.  Greedy character-class runs need no backtracking here because each
run is delimited by a character excluded from the class. -/
def tryImage (t : JSStr) : Option (JSStr × JSStr × JSStr × Option JSStr × JSStr) :=
  match t with
  | '!' :: '[' :: r0 =>
    let alt := r0.takeWhile (fun c => c ≠ ']')
    match r0.dropWhile (fun c => c ≠ ']') with
    | ']' :: '(' :: r2 =>
      let srcChar := fun c => !jsWhitespaceChar c && c ≠ ')'
      let src := r2.takeWhile srcChar
      if src = [] then none
      else
        match r2.dropWhile srcChar with
        | ')' :: rest =>
          some ('!' :: '[' :: alt ++ ']' :: '(' :: src ++ [')'],
            alt, src, none, rest)
        | c :: r3 =>
          if jsWhitespaceChar c then
            let ws := (c :: r3).takeWhile jsWhitespaceChar
            match (c :: r3).dropWhile jsWhitespaceChar with
            | '"' :: r4 =>
              let title := r4.takeWhile (fun d => d ≠ '"')
              match r4.dropWhile (fun d => d ≠ '"') with
              | '"' :: ')' :: rest =>
                some ('!' :: '[' :: alt ++ ']' :: '(' :: src ++ ws ++
                  '"' :: title ++ '"' :: [')'], alt, src, some title, rest)
              | _ => none
            | _ => none
          else none
        | [] => none
    | _ => none
  | _ => none

/-- Leftmost image match in `t` (the regex-engine scan): returns the text
before the match, the match with its groups, and the remainder. -/
def findImage : JSStr → Option (JSStr × (JSStr × JSStr × JSStr × Option JSStr) × JSStr)
  | [] => none
  | c :: t =>
    match tryImage (c :: t) with
    | some (m, alt, src, title, rest) => some ([], (m, alt, src, title), rest)
    | none =>
      match findImage t with
      | some (pre, g, rest) => some (c :: pre, g, rest)
      | none => none

/-- A run of the image-extraction part list: plain text or one image. -/
inductive ImagePart
  | text (content : JSStr)
  | image (content : JSStr) (alt : JSStr) (src : JSStr) (title : Option JSStr)
deriving DecidableEq, Repr

/-- Content of a part. -/
def ImagePart.content : ImagePart → JSStr
  | ImagePart.text c => c
  | ImagePart.image c _ _ _ => c

/-- Whether a part is an image run. -/
def ImagePart.isImage : ImagePart → Bool
  | ImagePart.text _ => false
  | ImagePart.image _ _ _ _ => true

/-- The `while (exec)` loop of splitImages, building the alternating
text/image part list; the fuel argument only bounds the recursion (each
image match consumes at least six characters) and is never exhausted when
called with the content length. -/
def imagePartsFuel : Nat → JSStr → List ImagePart
  | _, [] => []
  | 0, t => [ImagePart.text t]
  | fuel + 1, t =>
    match findImage t with
    | none => [ImagePart.text t]
    | some (pre, (m, alt, src, title), rest) =>
      (if pre = [] then [] else [ImagePart.text pre]) ++
        ImagePart.image m alt src title :: imagePartsFuel fuel rest

/-- The part list splitImages computes for a given rawContent. -/
def imageParts (content : JSStr) : List ImagePart :=
  imagePartsFuel (content.length + 1) content

/-- JS `IMAGE_REGEX.exec` from a given `lastIndex`, returning the match
start index, the matched text with groups, and the updated `lastIndex`. -/
def imageExecFrom (s : JSStr) (lastIndex : Nat) :
    Option (Nat × (JSStr × JSStr × JSStr × Option JSStr) × Nat) :=
  if lastIndex > s.length then none
  else
    match findImage (s.drop lastIndex) with
    | some (pre, (m, alt, src, title), _) =>
      let start := lastIndex + pre.length
      some (start, (m, alt, src, title), start + m.length)
    | none => none

/-- JS `IMAGE_REGEX.test(s)` with the regex's mutable `lastIndex`:
returns the boolean and the updated `lastIndex` (reset to 0 on failure,
advanced past the match on success). -/
def imageRegexTest (lastIndex : Nat) (s : JSStr) : Bool × Nat :=
  match imageExecFrom s lastIndex with
  | some (_, _, next) => (true, next)
  | none => (false, 0)

/-- `advancePosition`: advance offset/line/column over each code point of
`text` (JS `for...of` iterates code points). -/
def advancePosition (st : ParserState) (text : JSStr) : ParserState :=
  text.foldl
    (fun s c =>
      if c = '\n' then
        { s with position := s.position + 1, line := s.line + 1, column := 1 }
      else
        { s with position := s.position + 1, column := s.column + 1 })
    st

/-- `createFragment`: build a Fragment from the partial fields, the state
cursors and the wall clock; `idx` is the explicit index argument
(defaulting to `fragments.length`). -/
def createFragment (opts : ParserOptions) (st : ParserState) (now : Nat)
    (ftype : FragmentType) (raw : JSStr) (isComplete : Bool)
    (data : FragmentData) (idx : Option Nat) : Fragment :=
  let fragIndex := idx.getD st.fragments.length
  { key := generateFragmentKey raw fragIndex isComplete opts.hashAlgorithm now,
    type := ftype, rawContent := raw, isComplete := isComplete,
    position := { start := st.position, endPos := st.position + jsLength raw,
                  line := st.line, column := st.column },
    data := data,
    meta := { createdAt := now, updatedAt := now, updateCount := 0,
              fromStreaming := true } }

/-- `createInitialData`; the paragraph case calls `IMAGE_REGEX.test`,
whose mutable `lastIndex` is threaded as `rst`. -/
def createInitialData (rst : Nat) (ftype : FragmentType) (content : JSStr) :
    FragmentData × Nat :=
  match ftype with
  | FragmentType.heading =>
    (match headingMatch content with
     | some (k, txt) => FragmentData.headingData k txt
     | none => FragmentData.headingData 1 content, rst)
  | FragmentType.codeblock =>
    (FragmentData.codeBlockData (codeblockLang content) [] [], rst)
  | FragmentType.paragraph =>
    let r := imageRegexTest rst content
    (FragmentData.paragraphData content r.1, r.2)
  | _ => (FragmentData.defaultData content 1, rst)

/-- Index-aware map (JS `Array.prototype.map((x, i) => ...)`). -/
def mapWithIndex (g : Nat → α → β) : Nat → List α → List β
  | _, [] => []
  | i, x :: xs => g i x :: mapWithIndex g (i + 1) xs

/-- `splitImages`: split a paragraph/blockquote fragment around its image
markup.  Text parts keep the `{ content, hasInlineImages: false }` data
shape of the source.  The regex `lastIndex` is reset to 0 by the exec
loop; callers account for that. -/
def splitImages (opts : ParserOptions) (st : ParserState) (now : Nat)
    (fragment : Fragment) : List Fragment :=
  let parts := imageParts fragment.rawContent
  if !parts.any ImagePart.isImage then [fragment]
  else
    mapWithIndex
      (fun i p =>
        match p with
        | ImagePart.text c =>
          createFragment opts st now fragment.type c fragment.isComplete
            (FragmentData.paragraphData c false) (some i)
        | ImagePart.image c alt src title =>
          createFragment opts st now FragmentType.image c fragment.isComplete
            (FragmentData.imageData alt src title) (some i))
      0 (parts.filter (fun p => p.isImage || !jsTrimmedEmpty p.content))

/-- Position fix-up of `finalizeCurrentFragment`: when the end offset
still equals the start offset, move it to the current scan position. -/
def fixPosition (st : ParserState) (f : Fragment) : Fragment :=
  if f.position.endPos = f.position.start then
    { f with position := { f.position with endPos := st.position } }
  else f

/-- Key stabilization of `finalizeCurrentFragment`: a fragment that just
became complete while holding a temporary key receives its stable key. -/
def stabilizeKey (opts : ParserOptions) (st : ParserState) (now : Nat)
    (f : Fragment) : Fragment :=
  if f.isComplete ∧ jsStartsWith f.key (strOf "temp-") then
    let stable :=
      generateFragmentKey f.rawContent st.fragments.length true
        opts.hashAlgorithm now
    { f with key := stable }
  else f

/-- `finalizeCurrentFragment`: fix up the position, stabilize the key of
a just-completed fragment, run image splitting for paragraph/blockquote,
confirm the fragment(s) and clear the open slot. -/
def finalizeCurrentFragment (opts : ParserOptions) (st : ParserState)
    (rst : Nat) (now : Nat) : ParserState × Nat :=
  match st.currentFragment with
  | none => (st, rst)
  | some f =>
    let f1 := stabilizeKey opts st now (fixPosition st f)
    if f1.type = FragmentType.paragraph ∨ f1.type = FragmentType.blockquote then
      let imgs := splitImages opts st now f1
      let confirmed :=
        if imgs.any (fun g => g.type = FragmentType.image) then imgs else [f1]
      ({ st with fragments := st.fragments ++ confirmed, currentFragment := none }, 0)
    else
      ({ st with fragments := st.fragments ++ [f1], currentFragment := none }, rst)

/-- `updateCodeBlockData`: append the line to the code accumulator and,
under the `line` strategy, push a per-line record. -/
def updateCodeBlockData (opts : ParserOptions) (st : ParserState)
    (line : JSStr) (isIncomplete : Bool) : ParserState :=
  match st.currentFragment with
  | none => st
  | some f =>
    match f.data with
    | FragmentData.codeBlockData lang code recs =>
      let code' := code ++ (if code ≠ [] then '\n' :: line else line)
      let recs' :=
        if opts.incompleteCodeStrategy = CodeStrategy.line then
          recs ++ [{ content := line, lineNumber := recs.length + 1,
                     isComplete := !isIncomplete }]
        else recs
      let f' := { f with data := FragmentData.codeBlockData lang code' recs' }
      { st with currentFragment := some f' }
    | _ => st

/-- `finalizeCodeBlock`: recompute lang/code from the raw content, drop a
trailing fence record and force all records complete. -/
def finalizeCodeBlock (st : ParserState) : ParserState :=
  match st.currentFragment with
  | none => st
  | some f =>
    match f.data with
    | FragmentData.codeBlockData _ _ recs =>
      let lines := jsSplit '\n' f.rawContent
      let lang := codeblockLang (lines.headD [])
      let code :=
        if 2 ≤ lines.length ∧ lines.getLast? = some (strOf "```") then
          joinNl (lines.drop 1).dropLast
        else joinNl (lines.drop 1)
      let recs' :=
        match recs.getLast? with
        | some lastRec =>
          if lastRec.content = strOf "```" then recs.dropLast else recs
        | none => recs
      let recs'' := recs'.map (fun r => { r with isComplete := true })
      let f' := { f with data := FragmentData.codeBlockData lang code recs'' }
      { st with currentFragment := some f' }
    | _ => st

/-- `continueCodeBlock`: close the block on a terminated fence line,
otherwise accumulate the line into rawContent/code/records. -/
def continueCodeBlock (opts : ParserOptions) (st : ParserState) (rst : Nat)
    (now : Nat) (line : JSStr) (isIncomplete : Bool) : ParserState × Nat :=
  match st.currentFragment with
  | none => (st, rst)
  | some f =>
    if line = strOf "```" ∧ !isIncomplete then
      let f := { f with rawContent := f.rawContent ++ '\n' :: line, isComplete := true }
      let st := finalizeCodeBlock { st with currentFragment := some f }
      let r := finalizeCurrentFragment opts st rst now
      (advancePosition r.1 ('\n' :: line), r.2)
    else
      let raw :=
        if !jsEndsWith f.rawContent '\n' then f.rawContent ++ ['\n']
        else f.rawContent
      let st := { st with currentFragment := some { f with rawContent := raw ++ line } }
      let st := updateCodeBlockData opts st line isIncomplete
      (advancePosition st ('\n' :: line), rst)

/-- `continueList`: a terminated blank line ends the list, any other line
is appended. -/
def continueList (opts : ParserOptions) (st : ParserState) (rst : Nat)
    (now : Nat) (line : JSStr) (isIncomplete : Bool) : ParserState × Nat :=
  match st.currentFragment with
  | none => (st, rst)
  | some f =>
    if jsTrimmedEmpty line ∧ !isIncomplete then
      let st := { st with currentFragment := some { f with isComplete := true } }
      let r := finalizeCurrentFragment opts st rst now
      (advancePosition r.1 ['\n'], r.2)
    else
      let f' := { f with rawContent := f.rawContent ++ '\n' :: line }
      let st := { st with currentFragment := some f' }
      (advancePosition (advancePosition st ['\n']) line, rst)

/-- `continueBlockquote`: same shape as `continueList`. -/
def continueBlockquote (opts : ParserOptions) (st : ParserState) (rst : Nat)
    (now : Nat) (line : JSStr) (isIncomplete : Bool) : ParserState × Nat :=
  match st.currentFragment with
  | none => (st, rst)
  | some f =>
    if jsTrimmedEmpty line ∧ !isIncomplete then
      let st := { st with currentFragment := some { f with isComplete := true } }
      let r := finalizeCurrentFragment opts st rst now
      (advancePosition r.1 ['\n'], r.2)
    else
      let f' := { f with rawContent := f.rawContent ++ '\n' :: line }
      let st := { st with currentFragment := some f' }
      (advancePosition (advancePosition st ['\n']) line, rst)

/-- `continueDefaultBlock`: same shape as `continueList`. -/
def continueDefaultBlock (opts : ParserOptions) (st : ParserState) (rst : Nat)
    (now : Nat) (line : JSStr) (isIncomplete : Bool) : ParserState × Nat :=
  match st.currentFragment with
  | none => (st, rst)
  | some f =>
    if jsTrimmedEmpty line ∧ !isIncomplete then
      let st := { st with currentFragment := some { f with isComplete := true } }
      let r := finalizeCurrentFragment opts st rst now
      (advancePosition r.1 ['\n'], r.2)
    else
      let f' := { f with rawContent := f.rawContent ++ '\n' :: line }
      let st := { st with currentFragment := some f' }
      (advancePosition (advancePosition st ['\n']) line, rst)

/-- `continueFragment`: dispatch on the open fragment's type. -/
def continueFragment (opts : ParserOptions) (st : ParserState) (rst : Nat)
    (now : Nat) (line : JSStr) (isIncomplete : Bool) : ParserState × Nat :=
  match st.currentFragment with
  | none => (st, rst)
  | some f =>
    match f.type with
    | FragmentType.codeblock => continueCodeBlock opts st rst now line isIncomplete
    | FragmentType.list => continueList opts st rst now line isIncomplete
    | FragmentType.blockquote => continueBlockquote opts st rst now line isIncomplete
    | _ => continueDefaultBlock opts st rst now line isIncomplete

/-- `shouldContinueFragment` (the codeblock arm returns true on both of
its branches, as in the source). -/
def shouldContinueFragment (f : Fragment) (line : JSStr)
    (isCompleteLine : Bool) : Bool :=
  if f.type = FragmentType.heading ∨ f.type = FragmentType.thematicBreak then
    false
  else if f.type = FragmentType.codeblock then
    if line = strOf "```" ∧ isCompleteLine then true else true
  else if jsTrimmedEmpty line ∧ isCompleteLine then false
  else true

/-- `startNewFragmentFromLine`: skip blank lines (feeding them to an open
codeblock), otherwise classify the line, create the fragment and either
confirm it immediately (terminated single-line blocks, with the dead
image-split branch of the source) or open it. -/
def startNewFragmentFromLine (opts : ParserOptions) (st : ParserState)
    (rst : Nat) (now : Nat) (line : JSStr) (isIncomplete : Bool) :
    ParserState × Nat :=
  if jsTrimmedEmpty line then
    if st.currentFragment.map Fragment.type = some FragmentType.codeblock then
      continueFragment opts st rst now line isIncomplete
    else
      let st := advancePosition st line
      let st := if !isIncomplete then advancePosition st ['\n'] else st
      (st, rst)
  else
    let patt := findBlockPattern line
    let ftype := (patt.map BlockPattern.type).getD FragmentType.paragraph
    let isSingleLine := (patt.map BlockPattern.isSingleLine).getD false
    let shouldComplete := isSingleLine && !isIncomplete
    let dr := createInitialData rst ftype line
    let data := dr.1
    let rst := dr.2
    let fragment := createFragment opts st now ftype line shouldComplete data none
    if shouldComplete then
      let pushed :=
        if ftype = FragmentType.paragraph ∨ ftype = FragmentType.blockquote then
          let imgs := splitImages opts st now fragment
          (if imgs.any (fun g => g.type = FragmentType.image) then
            { st with fragments := st.fragments ++ imgs }
          else { st with fragments := st.fragments ++ [fragment] }, 0)
        else ({ st with fragments := st.fragments ++ [fragment] }, rst)
      let st := advancePosition pushed.1 line
      let st := advancePosition st ['\n']
      (st, pushed.2)
    else
      let st := { st with currentFragment := some fragment }
      let st := advancePosition st line
      let st := if !isIncomplete then advancePosition st ['\n'] else st
      (st, rst)

/-- Body of the re-parse loop of `parseIncremental` for one line with its
completeness flag. -/
def processLine (opts : ParserOptions) (now : Nat)
    (acc : ParserState × Nat) (lf : JSStr × Bool) : ParserState × Nat :=
  let st := acc.1
  let rst := acc.2
  let line := lf.1
  let isCompleteLine := lf.2
  match st.currentFragment with
  | some f =>
    if shouldContinueFragment f line isCompleteLine then
      continueFragment opts st rst now line (!isCompleteLine)
    else
      let st1 :=
        if jsTrimmedEmpty line ∧ isCompleteLine then
          { st with currentFragment := some { f with isComplete := true } }
        else st
      let r := finalizeCurrentFragment opts st1 rst now
      if !jsTrimmedEmpty line then
        startNewFragmentFromLine opts r.1 r.2 now line (!isCompleteLine)
      else r
  | none => startNewFragmentFromLine opts st rst now line (!isCompleteLine)

/-- Pair each split line with its `i <= lastCompleteIndex` flag: with a
trailing newline every line counts complete, otherwise all but the last
do. -/
def withFlags : List JSStr → Bool → List (JSStr × Bool)
  | [], _ => []
  | [l], b => [(l, b)]
  | l :: l2 :: ls, b => (l, true) :: withFlags (l2 :: ls) b

/-- `parseIncremental`: reset the scan state and re-parse every line of
the whole buffer. -/
def parseIncremental (opts : ParserOptions) (st : ParserState) (rst : Nat)
    (now : Nat) : ParserState × Nat :=
  let lines := jsSplit '\n' st.buffer
  let endsNl := jsEndsWith st.buffer '\n'
  let st0 :=
    { st with
      fragments := [], currentFragment := none, position := 0, line := 1,
      column := 1 }
  (withFlags lines endsNl).foldl (processLine opts now) (st0, rst)

/-- `appendChunk`: append to the buffer and re-parse; the empty chunk is
a no-op. -/
def appendChunk (opts : ParserOptions) (acc : ParserState × Nat)
    (chunk : JSStr) (now : Nat) : ParserState × Nat :=
  if chunk = [] then acc
  else parseIncremental opts { acc.1 with buffer := acc.1.buffer ++ chunk } acc.2 now

/-- `getFragments`: the confirmed fragments followed by the open one. -/
def getFragments (st : ParserState) : List Fragment :=
  st.fragments ++ st.currentFragment.toList

/-- Body of the re-key loop of `finalize` (`fragments.indexOf(frag)` of
a reference-distinct element is its own position, hence the index map). -/
def finalizeReKey (opts : ParserOptions) (now : Nat) (i : Nat)
    (f : Fragment) : Fragment :=
  if f.isComplete ∧ jsStartsWith f.key (strOf "temp-") then
    { f with key := generateFragmentKey f.rawContent i true opts.hashAlgorithm now }
  else f

/-- `finalize`: force-complete the open fragment, then re-key any
completed fragment still holding a temporary key; the source returns
`getFragments()` of the resulting state. -/
def finalizeState (opts : ParserOptions) (acc : ParserState × Nat)
    (now : Nat) : ParserState × Nat :=
  let r :=
    match acc.1.currentFragment with
    | some f =>
      finalizeCurrentFragment opts
        { acc.1 with currentFragment := some { f with isComplete := true } }
        acc.2 now
    | none => acc
  ({ r.1 with fragments := mapWithIndex (finalizeReKey opts now) 0 r.1.fragments }, r.2)

/-- The default options value used by `new StreamingParser()`. -/
def defaultOptions : ParserOptions := {}

/-- Run a fresh parser over a list of chunks, each with the wall-clock
value observed by its `appendChunk` call. -/
def runChunks (opts : ParserOptions) (l : List (JSStr × Nat)) :
    ParserState × Nat :=
  l.foldl (fun acc cn => appendChunk opts acc cn.1 cn.2) (initialState, 0)

/-- Concatenation of a chunk sequence. -/
def chunksText (l : List (JSStr × Nat)) : JSStr := (l.map Prod.fst).flatten

/-- States reachable from a fresh parser by `appendChunk` and `finalize`
calls. -/
inductive Reached (opts : ParserOptions) : ParserState × Nat → Prop
  | init : Reached opts (initialState, 0)
  | stepAppend (acc : ParserState × Nat) (chunk : JSStr) (now : Nat) :
      Reached opts acc → Reached opts (appendChunk opts acc chunk now)
  | stepFinalize (acc : ParserState × Nat) (now : Nat) :
      Reached opts acc → Reached opts (finalizeState opts acc now)

/-- Fragment payload with the volatile `hasInlineImages` bit of paragraph
data removed (that bit is the one observable influenced by the shared
mutable `IMAGE_REGEX.lastIndex`). -/
inductive DataObs
  | headingData (level : Nat) (content : JSStr)
  | codeBlockData (lang : JSStr) (code : JSStr) (lines : List CodeLine)
  | paragraphData (content : JSStr)
  | imageData (alt : JSStr) (src : JSStr) (title : Option JSStr)
  | defaultData (content : JSStr) (level : Nat)
deriving DecidableEq, Repr

/-- Erase the volatile paragraph bit from a payload. -/
def FragmentData.obs : FragmentData → DataObs
  | FragmentData.headingData l c => DataObs.headingData l c
  | FragmentData.codeBlockData lang code lines =>
    DataObs.codeBlockData lang code lines
  | FragmentData.paragraphData c _ => DataObs.paragraphData c
  | FragmentData.imageData a s t => DataObs.imageData a s t
  | FragmentData.defaultData c l => DataObs.defaultData c l

/-- Deterministic observation of a fragment: everything except its
provenance metadata, the exact text of a temporary (volatile) key, and
the `hasInlineImages` bit. -/
structure FragObs where
  keyObs : Option JSStr
  type : FragmentType
  rawContent : JSStr
  isComplete : Bool
  position : SourcePosition
  dataObs : DataObs
deriving DecidableEq, Repr

/-- Observation of a fragment. -/
def Fragment.obs (f : Fragment) : FragObs :=
  { keyObs := if f.isComplete then some f.key else none, type := f.type,
    rawContent := f.rawContent, isComplete := f.isComplete,
    position := f.position, dataObs := f.data.obs }

/-- Deterministic observation of a parser state. -/
structure StateObs where
  fragments : List FragObs
  currentFragment : Option FragObs
  position : Nat
  line : Nat
  column : Nat
deriving DecidableEq, Repr

/-- Observation of a parser state. -/
def ParserState.obs (st : ParserState) : StateObs :=
  { fragments := st.fragments.map Fragment.obs,
    currentFragment := st.currentFragment.map Fragment.obs,
    position := st.position, line := st.line, column := st.column }

/-- The open fragment, when present, is incomplete and carries a
temporary key. -/
def InvCur (st : ParserState) : Prop :=
  ∀ f, st.currentFragment = some f →
    f.isComplete = false ∧ jsStartsWith f.key (strOf "temp-") = true

/-- The open fragment, when present, is of a multi-line block type. -/
def InvCurType (st : ParserState) : Prop :=
  ∀ f, st.currentFragment = some f →
    f.type = FragmentType.codeblock ∨ f.type = FragmentType.list ∨
    f.type = FragmentType.blockquote ∨ f.type = FragmentType.paragraph

/-- Every confirmed fragment is complete and carries the stable
content-derived key. -/
def InvFrags (opts : ParserOptions) (st : ParserState) : Prop :=
  ∀ f ∈ st.fragments,
    f.isComplete = true ∧ f.key = strOf "frag-" ++ hashOf opts.hashAlgorithm f.rawContent

/-- Line records of a codeblock payload. -/
def codeLinesOf : FragmentData → List CodeLine
  | FragmentData.codeBlockData _ _ recs => recs
  | _ => []

/-- Session: `appendChunk("hello\n")` at time 100. -/
def helloSession1 : ParserState × Nat :=
  appendChunk defaultOptions (initialState, 0) (strOf "hello\n") 100

/-- Session: `helloSession1` then `appendChunk("world")` at time 200. -/
def helloSession2 : ParserState × Nat :=
  appendChunk defaultOptions helloSession1 (strOf "world") 200

/-- Session: the first chunk of the spec's codeblock example. -/
def codeSession1 : ParserState × Nat :=
  appendChunk defaultOptions (initialState, 0) (strOf "```js\nline1\n") 1

/-- Session: both chunks of the spec's codeblock example. -/
def codeSession2 : ParserState × Nat :=
  appendChunk defaultOptions codeSession1 (strOf "line2\n```\n") 2

/-- Session: a codeblock with an unterminated body line, then finalize. -/
def codeFinalPlain : ParserState × Nat :=
  finalizeState defaultOptions
    (appendChunk defaultOptions (initialState, 0) (strOf "```js\nline1") 1) 2

/-- Session: a codeblock whose unterminated last line is a fence, then
finalize. -/
def codeFinalFence : ParserState × Nat :=
  finalizeState defaultOptions
    (appendChunk defaultOptions (initialState, 0) (strOf "```js\nab\n```") 1) 2

/-- Session: two images separated by a single space, then finalize. -/
def imagePairSession : ParserState × Nat :=
  finalizeState defaultOptions
    (appendChunk defaultOptions (initialState, 0)
      (strOf "![a](u.png) ![b](v.png)\n\n") 1) 2

/-- Session: the spec's image-splitting example, then finalize. -/
def imageExampleSession : ParserState × Nat :=
  finalizeState defaultOptions
    (appendChunk defaultOptions (initialState, 0)
      (strOf "Text ![a](u.png) more\n\n") 1) 2

/-- A concrete open codeblock fragment, for witnesses. -/
def sampleCodeFragment : Fragment :=
  createFragment defaultOptions initialState 0 FragmentType.codeblock
    (strOf "```") false (FragmentData.codeBlockData [] [] []) none

/-- A concrete state holding `sampleCodeFragment` open, for witnesses. -/
def sampleCodeState : ParserState :=
  { initialState with currentFragment := some sampleCodeFragment }

/-- A concrete complete paragraph fragment with no image markup, for
witnesses. -/
def samplePlainFragment : Fragment :=
  createFragment defaultOptions initialState 0 FragmentType.paragraph
    (strOf "xyz") true (FragmentData.paragraphData (strOf "xyz") false) none

/-- Session: a heading fed in one chunk. -/
def headingRunA : ParserState × Nat :=
  appendChunk defaultOptions (initialState, 0) (strOf "# Hi\n") 3

/-- Session: the same heading fed in two chunks. -/
def headingRunB : ParserState × Nat :=
  appendChunk defaultOptions
    (appendChunk defaultOptions (initialState, 0) (strOf "# ") 4)
    (strOf "Hi\n") 5

/-- The single fragment of `headingRunA`. -/
def headingFragA : Fragment :=
  (getFragments headingRunA.1).headD sampleCodeFragment

/-- The single fragment of `headingRunB`. -/
def headingFragB : Fragment :=
  (getFragments headingRunB.1).headD sampleCodeFragment

/-- Session: an unterminated paragraph, then finalize. -/
def helloFinalSession : ParserState × Nat :=
  finalizeState defaultOptions
    (appendChunk defaultOptions (initialState, 0) (strOf "hello") 1) 2

/-- The single fragment of `helloFinalSession`. -/
def helloFinalFragment : Fragment :=
  (getFragments helloFinalSession.1).headD sampleCodeFragment

/-- A concrete complete paragraph fragment containing one image markup,
for witnesses. -/
def sampleImageFragment : Fragment :=
  createFragment defaultOptions initialState 0 FragmentType.paragraph
    (strOf "a ![x](y) b") true
    (FragmentData.paragraphData (strOf "a ![x](y) b") true) none

/-- The data recomputation of `finalizeCodeBlock`, as a function of the
fragment's raw content and previous data. -/
def finalizeCodeData (raw : JSStr) (d : FragmentData) : FragmentData :=
  match d with
  | FragmentData.codeBlockData _ _ recs =>
    let lines := jsSplit '\n' raw
    let lang := codeblockLang (lines.headD [])
    let code :=
      if 2 ≤ lines.length ∧ lines.getLast? = some (strOf "```") then
        joinNl (lines.drop 1).dropLast
      else joinNl (lines.drop 1)
    let recs' :=
      match recs.getLast? with
      | some lastRec =>
        if lastRec.content = strOf "```" then recs.dropLast else recs
      | none => recs
    FragmentData.codeBlockData lang code
      (recs'.map (fun r => { r with isComplete := true }))
  | d => d

/-- The data update of `updateCodeBlockData`, as a function of the line
and previous data. -/
def updateCodeData (opts : ParserOptions) (line : JSStr)
    (isIncomplete : Bool) (d : FragmentData) : FragmentData :=
  match d with
  | FragmentData.codeBlockData lang code recs =>
    FragmentData.codeBlockData lang
      (code ++ (if code ≠ [] then '\n' :: line else line))
      (if opts.incompleteCodeStrategy = CodeStrategy.line then
        recs ++ [{ content := line, lineNumber := recs.length + 1,
                   isComplete := !isIncomplete }]
      else recs)
  | d => d

/-- C2 (code-bug evidence): after `appendChunk("hello\n")` the snapshot's
only fragment is complete and carries a stable `frag-` key, yet after one
more `appendChunk("world")` — with no intervening finalize — the
snapshot's only fragment is open again with a volatile `temp-` key: the
stable key did not survive a subsequent appendChunk, against the claim's
monotonic key stability. -/
theorem C2_stable_key_not_monotonic :
    ((getFragments helloSession1.1).map
      (fun f => (jsStartsWith f.key (strOf "frag-"), f.isComplete)) =
        [(true, true)]) ∧
    ((getFragments helloSession2.1).map
      (fun f => (jsStartsWith f.key (strOf "frag-"),
        jsStartsWith f.key (strOf "temp-"), f.isComplete)) =
          [(false, true, false)]) := by decide

/-- C3 (code-bug evidence): the paragraph observed with `isComplete=true`
after `appendChunk("hello\n")` is observed with `isComplete=false` (with
its rawContent grown) after the next `appendChunk("world")`, so completion
is reversed by an appendChunk within a single session without reset. -/
theorem C3_completion_reversed :
    ((getFragments helloSession1.1).map
      (fun f => (f.rawContent, f.isComplete)) = [(strOf "hello", true)]) ∧
    ((getFragments helloSession2.1).map
      (fun f => (f.rawContent, f.isComplete)) =
        [(strOf "hello\nworld", false)]) := by decide

/-- C4 (counterexample): after `appendChunk("` ``` `js\nline1\n")` the open
codeblock fragment's line-record list has a second, empty record — the
trailing empty split-line after the final newline is processed as a
complete line — so it is not the singleton list the claim states. -/
theorem C4_first_chunk_records_counterexample :
    ((getFragments codeSession1.1).map (fun f => codeLinesOf f.data) =
      [[{ content := strOf "line1", lineNumber := 1, isComplete := true },
        { content := [], lineNumber := 2, isComplete := true }]]) ∧
    (([{ content := strOf "line1", lineNumber := 1, isComplete := true },
       { content := [], lineNumber := 2, isComplete := true }] :
        List CodeLine) ≠
      [{ content := strOf "line1", lineNumber := 1, isComplete := true }]) := by
  decide

/-- C4 (amended): the first chunk yields exactly one open codeblock
fragment with no closing fence and line records
`[{line1,1,true},{"",2,true}]`; the second chunk completes it with
`code = "line1\nline2"`, `lang = "js"`, and all records complete. -/
theorem C4_codeblock_example_amended :
    ((getFragments codeSession1.1).map
      (fun f => (f.type, f.isComplete, f.rawContent, f.data)) =
      [(FragmentType.codeblock, false, strOf "```js\nline1\n",
        FragmentData.codeBlockData (strOf "js") (strOf "line1\n")
          [{ content := strOf "line1", lineNumber := 1, isComplete := true },
           { content := [], lineNumber := 2, isComplete := true }])]) ∧
    ((getFragments codeSession2.1).map
      (fun f => (f.type, f.isComplete, f.rawContent, f.data)) =
      [(FragmentType.codeblock, true, strOf "```js\nline1\nline2\n```",
        FragmentData.codeBlockData (strOf "js") (strOf "line1\nline2")
          [{ content := strOf "line1", lineNumber := 1, isComplete := true },
           { content := strOf "line2", lineNumber := 2,
             isComplete := true }])]) := by decide

/-- C5 (code-bug evidence): when a codeblock is forced complete by
`finalize()` the per-line records are left untouched — the record of an
unterminated body line stays `isComplete=false`, and an unterminated
closing-fence line remains in the list as an incomplete record — against
the claim that every completion forces all records complete and removes
the fence record. -/
theorem C5_finalize_skips_record_completion :
    ((getFragments codeFinalPlain.1).map
      (fun f => (f.isComplete, codeLinesOf f.data)) =
      [(true,
        [{ content := strOf "line1", lineNumber := 1,
           isComplete := false }])]) ∧
    ((getFragments codeFinalFence.1).map
      (fun f => (f.isComplete, codeLinesOf f.data)) =
      [(true,
        [{ content := strOf "ab", lineNumber := 1, isComplete := true },
         { content := strOf "```", lineNumber := 2,
           isComplete := false }])]) := by decide

/-- C6 (counterexample): on `"![a](u.png) ![b](v.png)"` the image scan
produces a non-empty text span `" "` between the two image spans, yet the
final snapshot holds only the two image fragments — the whitespace-only
span is dropped even though it has nonzero length, against the claim that
only zero-length text spans are dropped. -/
theorem C6_nonempty_span_dropped_counterexample :
    ((imageParts (strOf "![a](u.png) ![b](v.png)")).map ImagePart.content =
      [strOf "![a](u.png)", strOf " ", strOf "![b](v.png)"]) ∧
    (strOf " " ≠ ([] : JSStr)) ∧
    ((getFragments imagePairSession.1).map (fun f => f.type) =
      [FragmentType.image, FragmentType.image]) := by decide

/-- C10 (counterexample): the same text fed as one chunk versus as two
chunks yields fragments with different `data` — the paragraph's
`hasInlineImages` bit flips because `IMAGE_REGEX.test` leaves a stale
`lastIndex` on the shared regex between the re-parses — so observable
output is not a function of the chunk concatenation alone. -/
theorem C10_chunking_data_counterexample :
    (chunksText [(strOf "![x](y) hello", 1)] =
      chunksText [(strOf "![x](y) hell", 1), (strOf "o", 2)]) ∧
    ((getFragments (runChunks defaultOptions
        [(strOf "![x](y) hello", 1)]).1).map (fun f => f.data) =
      [FragmentData.paragraphData (strOf "![x](y) hello") true]) ∧
    ((getFragments (runChunks defaultOptions
        [(strOf "![x](y) hell", 1), (strOf "o", 2)]).1).map
          (fun f => f.data) =
      [FragmentData.paragraphData (strOf "![x](y) hello") false]) ∧
    (FragmentData.paragraphData (strOf "![x](y) hello") true ≠
      FragmentData.paragraphData (strOf "![x](y) hello") false) := by decide

/-- A list is a Boolean prefix of itself followed by anything. -/
theorem isPrefixOf_self_append (p t : List Char) :
    p.isPrefixOf (p ++ t) = true := by
  induction p with
  | nil => simp [List.isPrefixOf]
  | cons c cs ih => simp [List.isPrefixOf, ih]

/-- Stable keys do not carry the temporary prefix. -/
theorem frag_key_not_temp (h : JSStr) :
    jsStartsWith (strOf "frag-" ++ h) (strOf "temp-") = false := rfl

/-- Stable keys carry the stable prefix. -/
theorem frag_key_starts_frag (h : JSStr) :
    jsStartsWith (strOf "frag-" ++ h) (strOf "frag-") = true := by
  have h2 := isPrefixOf_self_append (strOf "frag-") h
  simp only [jsStartsWith]
  exact h2

/-- Temporary keys carry the temporary prefix. -/
theorem temp_key_starts_temp (c : JSStr) (i : Nat) (alg : HashAlg) (now : Nat) :
    jsStartsWith (generateFragmentKey c i false alg now) (strOf "temp-") = true := by
  simp only [generateFragmentKey, if_neg (by simp : ¬ (false = true))]
  have h2 := isPrefixOf_self_append (strOf "temp-")
    (natToDec i ++ '-' :: natToDec (jsLength c) ++ '-' :: natToDec now)
  simp only [jsStartsWith, List.append_assoc, List.cons_append,
    List.nil_append] at h2 ⊢
  exact h2

/-- A key produced for a complete fragment is the stable key. -/
theorem generateFragmentKey_complete (c : JSStr) (i : Nat) (alg : HashAlg)
    (now : Nat) :
    generateFragmentKey c i true alg now = strOf "frag-" ++ hashOf alg c := rfl

/-- Re-keying in `finalize` is idempotent on a fragment. -/
theorem finalizeReKey_idem (opts : ParserOptions) (now now' : Nat) (i : Nat)
    (f : Fragment) :
    finalizeReKey opts now' i (finalizeReKey opts now i f) =
      finalizeReKey opts now i f := by
  unfold finalizeReKey
  by_cases h : f.isComplete = true ∧ jsStartsWith f.key (strOf "temp-") = true
  · rw [if_pos h]
    have hk : jsStartsWith
        (generateFragmentKey f.rawContent i true opts.hashAlgorithm now)
        (strOf "temp-") = false := by
      rw [generateFragmentKey_complete]; exact frag_key_not_temp _
    simp [hk]
  · rw [if_neg h, if_neg h]

/-- Unfolding lemma for `mapWithIndex` on nil. -/
theorem mapWithIndex_nil (g : Nat → α → β) (i : Nat) :
    mapWithIndex g i [] = [] := rfl

/-- Unfolding lemma for `mapWithIndex` on cons. -/
theorem mapWithIndex_cons (g : Nat → α → β) (i : Nat) (x : α) (xs : List α) :
    mapWithIndex g i (x :: xs) = g i x :: mapWithIndex g (i + 1) xs := rfl

/-- A pointwise-fixed second index-map is the identity on the image of a
first one. -/
theorem mapWithIndex_fix (g h : Nat → α → α)
    (hfix : ∀ i x, h i (g i x) = g i x) (l : List α) (i : Nat) :
    mapWithIndex h i (mapWithIndex g i l) = mapWithIndex g i l := by
  induction l generalizing i with
  | nil => rfl
  | cons x xs ih =>
    rw [mapWithIndex_cons, mapWithIndex_cons, hfix, ih]

/-- Applying the `finalize` re-key map twice equals applying it once. -/
theorem mapWithIndex_finalizeReKey_idem (opts : ParserOptions)
    (now now' : Nat) (l : List Fragment) (i : Nat) :
    mapWithIndex (finalizeReKey opts now') i
        (mapWithIndex (finalizeReKey opts now) i l) =
      mapWithIndex (finalizeReKey opts now) i l :=
  mapWithIndex_fix _ _ (fun j x => finalizeReKey_idem opts now now' j x) l i

/-- `finalizeCurrentFragment` always clears the open slot when it was
occupied. -/
theorem finalizeCurrentFragment_clears (opts : ParserOptions)
    (st : ParserState) (rst now : Nat) (f : Fragment)
    (h : st.currentFragment = some f) :
    (finalizeCurrentFragment opts st rst now).1.currentFragment = none := by
  unfold finalizeCurrentFragment
  rw [h]
  dsimp only
  split_ifs <;> rfl

/-- `finalize` leaves no open fragment. -/
theorem finalizeState_clears (opts : ParserOptions) (acc : ParserState × Nat)
    (now : Nat) :
    (finalizeState opts acc now).1.currentFragment = none := by
  obtain ⟨st, rst⟩ := acc
  unfold finalizeState
  dsimp only
  cases h : st.currentFragment with
  | none => exact h
  | some f =>
    simpa using finalizeCurrentFragment_clears opts
      { st with currentFragment := some { f with isComplete := true } }
      rst now _ rfl

/-- `finalize` on a state with no open fragment only runs the re-key
map. -/
theorem finalizeState_of_none (opts : ParserOptions) (st : ParserState)
    (rst now : Nat) (h : st.currentFragment = none) :
    finalizeState opts (st, rst) now =
      ({ st with fragments :=
          mapWithIndex (finalizeReKey opts now) 0 st.fragments }, rst) := by
  unfold finalizeState
  dsimp only
  rw [h]
  dsimp only
  rw [h]

/-- The fragments left by `finalize` are an image of the re-key map. -/
theorem finalizeState_fragments (opts : ParserOptions)
    (acc : ParserState × Nat) (now : Nat) :
    ∃ l, (finalizeState opts acc now).1.fragments =
      mapWithIndex (finalizeReKey opts now) 0 l := by
  obtain ⟨st, rst⟩ := acc
  unfold finalizeState
  dsimp only
  cases st.currentFragment <;> exact ⟨_, rfl⟩

/-- `finalize` twice is `finalize` once, at the state level. -/
theorem finalizeState_idem (opts : ParserOptions) (acc : ParserState × Nat)
    (now1 now2 : Nat) :
    finalizeState opts (finalizeState opts acc now1) now2 =
      finalizeState opts acc now1 := by
  have hnone := finalizeState_clears opts acc now1
  obtain ⟨l, hl⟩ := finalizeState_fragments opts acc now1
  have h2 := finalizeState_of_none opts (finalizeState opts acc now1).1
    (finalizeState opts acc now1).2 now2 hnone
  rw [Prod.mk.eta] at h2
  rw [h2, hl, mapWithIndex_finalizeReKey_idem, ← hl]

/-- Advancing the position only changes the scan cursors. -/
theorem advancePosition_shape (t : JSStr) (st : ParserState) :
    ∃ p li co, advancePosition st t =
      { st with position := p, line := li, column := co } := by
  induction t generalizing st with
  | nil => exact ⟨st.position, st.line, st.column, rfl⟩
  | cons c cs ih =>
    by_cases hc : c = '\n'
    · obtain ⟨p, li, co, h⟩ :=
        ih { st with position := st.position + 1, line := st.line + 1, column := 1 }
      exact ⟨p, li, co, by simpa [advancePosition, hc] using h⟩
    · obtain ⟨p, li, co, h⟩ := ih
        { st with position := st.position + 1, column := st.column + 1 }
      exact ⟨p, li, co, by simpa [advancePosition, hc] using h⟩

/-- Elements of an index-aware map image. -/
theorem mapWithIndex_mem (g : Nat → α → β) (i : Nat) (l : List α)
    (y : β) (hy : y ∈ mapWithIndex g i l) : ∃ j x, x ∈ l ∧ y = g j x := by
  induction l generalizing i with
  | nil => cases hy
  | cons x xs ih =>
    rw [mapWithIndex_cons] at hy
    rcases List.mem_cons.mp hy with h | h
    · exact ⟨i, x, List.mem_cons_self _ _, h⟩
    · obtain ⟨j, x', hx', hy'⟩ := ih (i + 1) h
      exact ⟨j, x', List.mem_cons_of_mem _ hx', hy'⟩

/-- A fragment created complete carries the stable content key. -/
theorem createFragment_complete (opts : ParserOptions) (st : ParserState)
    (now : Nat) (ty : FragmentType) (raw : JSStr) (data : FragmentData)
    (idx : Option Nat) :
    (createFragment opts st now ty raw true data idx).isComplete = true ∧
    (createFragment opts st now ty raw true data idx).key =
      strOf "frag-" ++ hashOf opts.hashAlgorithm raw ∧
    (createFragment opts st now ty raw true data idx).rawContent = raw :=
  ⟨rfl, rfl, rfl⟩

/-- A fragment created open carries a temporary key. -/
theorem createFragment_incomplete (opts : ParserOptions) (st : ParserState)
    (now : Nat) (ty : FragmentType) (raw : JSStr) (data : FragmentData)
    (idx : Option Nat) :
    (createFragment opts st now ty raw false data idx).isComplete = false ∧
    jsStartsWith (createFragment opts st now ty raw false data idx).key
      (strOf "temp-") = true ∧
    (createFragment opts st now ty raw false data idx).type = ty :=
  ⟨rfl, temp_key_starts_temp raw (idx.getD st.fragments.length)
    opts.hashAlgorithm now, rfl⟩

/-- Every fragment produced by `splitImages` from a complete stable-keyed
fragment is itself complete with the stable content key. -/
theorem splitImages_inv (opts : ParserOptions) (st : ParserState) (now : Nat)
    (f : Fragment) (hc : f.isComplete = true)
    (hk : f.key = strOf "frag-" ++ hashOf opts.hashAlgorithm f.rawContent) :
    ∀ g ∈ splitImages opts st now f,
      g.isComplete = true ∧
      g.key = strOf "frag-" ++ hashOf opts.hashAlgorithm g.rawContent := by
  intro g hg
  unfold splitImages at hg
  dsimp only at hg
  split at hg
  · rcases List.mem_singleton.mp hg with rfl
    exact ⟨hc, hk⟩
  · obtain ⟨j, p, _, rfl⟩ := mapWithIndex_mem _ _ _ _ hg
    cases p with
    | text c =>
      rw [hc]
      exact ⟨(createFragment_complete opts st now f.type c _ (some j)).1,
        by rw [(createFragment_complete opts st now f.type c _ (some j)).2.1,
          (createFragment_complete opts st now f.type c _ (some j)).2.2]⟩
    | image c alt src title =>
      rw [hc]
      exact ⟨(createFragment_complete opts st now FragmentType.image c _
          (some j)).1,
        by rw [(createFragment_complete opts st now FragmentType.image c _
            (some j)).2.1,
          (createFragment_complete opts st now FragmentType.image c _
            (some j)).2.2]⟩

/-- Confirming an open fragment that was just completed (still holding
its temporary key) preserves the confirmed-fragment invariant. -/
theorem finalizeCurrentFragment_inv (opts : ParserOptions) (st : ParserState)
    (rst now : Nat) (f : Fragment) (hfr : InvFrags opts st)
    (hc : st.currentFragment = some f) (hcomp : f.isComplete = true)
    (hkey : jsStartsWith f.key (strOf "temp-") = true) :
    InvFrags opts (finalizeCurrentFragment opts st rst now).1 := by
  have hf1c : (fixPosition st f).isComplete = true := by
    unfold fixPosition; split <;> exact hcomp
  have hf1k : (fixPosition st f).key = f.key := by
    unfold fixPosition; split <;> rfl
  have hc2 : (stabilizeKey opts st now (fixPosition st f)).isComplete = true := by
    unfold stabilizeKey; split <;> exact hf1c
  have hk2 : (stabilizeKey opts st now (fixPosition st f)).key =
      strOf "frag-" ++
        hashOf opts.hashAlgorithm
          (stabilizeKey opts st now (fixPosition st f)).rawContent := by
    unfold stabilizeKey
    rw [if_pos ⟨hf1c, by rw [hf1k]; exact hkey⟩]
    rfl
  unfold finalizeCurrentFragment
  rw [hc]
  dsimp only
  split
  · intro g hg
    dsimp only at hg
    rcases List.mem_append.mp hg with h | h
    · exact hfr g h
    · split at h
      · exact splitImages_inv opts st now _ hc2 hk2 g h
      · rcases List.mem_singleton.mp h with rfl
        exact ⟨hc2, hk2⟩
  · intro g hg
    dsimp only at hg
    rcases List.mem_append.mp hg with h | h
    · exact hfr g h
    · rcases List.mem_singleton.mp h with rfl
      exact ⟨hc2, hk2⟩

/-- Re-installing the open fragment a state already holds is the
identity. -/
theorem setCurrent_self (st : ParserState) (f : Fragment)
    (hc : st.currentFragment = some f) :
    { st with currentFragment := some f } = st := by
  cases st
  dsimp only at hc
  rw [hc]

/-- Advancing the position does not change the confirmed-fragment
invariant. -/
theorem invFrags_advancePosition (opts : ParserOptions) (st : ParserState)
    (t : JSStr) :
    InvFrags opts (advancePosition st t) = InvFrags opts st := by
  obtain ⟨p, li, co, h⟩ := advancePosition_shape t st
  rw [h]
  rfl

/-- Advancing the position does not change the open fragment. -/
theorem advancePosition_currentFragment (st : ParserState) (t : JSStr) :
    (advancePosition st t).currentFragment = st.currentFragment := by
  obtain ⟨p, li, co, h⟩ := advancePosition_shape t st
  rw [h]

/-- Advancing the position does not change the confirmed fragments. -/
theorem advancePosition_fragments (st : ParserState) (t : JSStr) :
    (advancePosition st t).fragments = st.fragments := by
  obtain ⟨p, li, co, h⟩ := advancePosition_shape t st
  rw [h]

/-- A matched block pattern that is not single-line has one of the four
multi-line types. -/
theorem findBlockPattern_multiline (l : JSStr) (p : BlockPattern)
    (h : findBlockPattern l = some p) (hs : p.isSingleLine = false) :
    p.type = FragmentType.codeblock ∨ p.type = FragmentType.list ∨
    p.type = FragmentType.blockquote ∨ p.type = FragmentType.paragraph := by
  have hp : p ∈ BLOCK_PATTERNS := List.mem_of_find?_eq_some h
  simp only [BLOCK_PATTERNS, List.mem_cons, List.not_mem_nil, or_false] at hp
  rcases hp with rfl | rfl | rfl | rfl | rfl | rfl <;> simp_all

/-- An open codeblock is always continued. -/
theorem shouldContinueFragment_codeblock (f : Fragment) (line : JSStr)
    (flag : Bool) (h : f.type = FragmentType.codeblock) :
    shouldContinueFragment f line flag = true := by
  unfold shouldContinueFragment
  rw [h]
  simp

/-- For the multi-line non-code block types, continuation stops exactly at
a terminated blank line. -/
theorem shouldContinueFragment_eq_false (f : Fragment) (line : JSStr)
    (flag : Bool) (h1 : f.type ≠ FragmentType.heading)
    (h2 : f.type ≠ FragmentType.thematicBreak)
    (h3 : f.type ≠ FragmentType.codeblock) :
    shouldContinueFragment f line flag = false ↔
      jsTrimmedEmpty line = true ∧ flag = true := by
  unfold shouldContinueFragment
  simp [h1, h2, h3]

/-- `finalizeCodeBlock` only rewrites the open fragment's data. -/
theorem finalizeCodeBlock_shape (st : ParserState) (f : Fragment)
    (hc : st.currentFragment = some f) :
    ∃ d, finalizeCodeBlock st =
      { st with currentFragment := some { f with data := d } } := by
  unfold finalizeCodeBlock
  rw [hc]
  dsimp only
  rcases hdata : f.data with h1 | h2 | h3 | h4 | h5
  case codeBlockData => exact ⟨_, rfl⟩
  all_goals exact ⟨f.data, (setCurrent_self st f hc).symm⟩

/-- `updateCodeBlockData` only rewrites the open fragment's data. -/
theorem updateCodeBlockData_shape (opts : ParserOptions) (st : ParserState)
    (line : JSStr) (inc : Bool) (f : Fragment)
    (hc : st.currentFragment = some f) :
    ∃ d, updateCodeBlockData opts st line inc =
      { st with currentFragment := some { f with data := d } } := by
  unfold updateCodeBlockData
  rw [hc]
  dsimp only
  rcases hdata : f.data with h1 | h2 | h3 | h4 | h5
  case codeBlockData => exact ⟨_, rfl⟩
  all_goals exact ⟨f.data, (setCurrent_self st f hc).symm⟩

/-- Continuing a list block preserves the invariants: either the block
closed, or the open fragment kept its type, key and completion state. -/
theorem continueList_inv (opts : ParserOptions) (st : ParserState)
    (rst now : Nat) (line : JSStr) (inc : Bool) (f : Fragment)
    (hfr : InvFrags opts st) (hc : st.currentFragment = some f)
    (hkey : jsStartsWith f.key (strOf "temp-") = true) :
    InvFrags opts (continueList opts st rst now line inc).1 ∧
    ((continueList opts st rst now line inc).1.currentFragment = none ∨
      ∃ g, (continueList opts st rst now line inc).1.currentFragment = some g ∧
        g.type = f.type ∧ g.key = f.key ∧ g.isComplete = f.isComplete) := by
  unfold continueList
  rw [hc]
  dsimp only
  split
  · constructor
    · rw [invFrags_advancePosition]
      exact finalizeCurrentFragment_inv opts _ rst now
        { f with isComplete := true } hfr rfl rfl hkey
    · left
      rw [advancePosition_currentFragment]
      exact finalizeCurrentFragment_clears opts _ rst now _ rfl
  · constructor
    · rw [invFrags_advancePosition, invFrags_advancePosition]
      exact hfr
    · right
      simp only [advancePosition_currentFragment]
      exact ⟨_, rfl, rfl, rfl, rfl⟩

/-- Continuing a blockquote preserves the invariants. -/
theorem continueBlockquote_inv (opts : ParserOptions) (st : ParserState)
    (rst now : Nat) (line : JSStr) (inc : Bool) (f : Fragment)
    (hfr : InvFrags opts st) (hc : st.currentFragment = some f)
    (hkey : jsStartsWith f.key (strOf "temp-") = true) :
    InvFrags opts (continueBlockquote opts st rst now line inc).1 ∧
    ((continueBlockquote opts st rst now line inc).1.currentFragment = none ∨
      ∃ g, (continueBlockquote opts st rst now line inc).1.currentFragment =
          some g ∧
        g.type = f.type ∧ g.key = f.key ∧ g.isComplete = f.isComplete) := by
  unfold continueBlockquote
  rw [hc]
  dsimp only
  split
  · constructor
    · rw [invFrags_advancePosition]
      exact finalizeCurrentFragment_inv opts _ rst now
        { f with isComplete := true } hfr rfl rfl hkey
    · left
      rw [advancePosition_currentFragment]
      exact finalizeCurrentFragment_clears opts _ rst now _ rfl
  · constructor
    · rw [invFrags_advancePosition, invFrags_advancePosition]
      exact hfr
    · right
      simp only [advancePosition_currentFragment]
      exact ⟨_, rfl, rfl, rfl, rfl⟩

/-- Continuing a default (paragraph) block preserves the invariants. -/
theorem continueDefaultBlock_inv (opts : ParserOptions) (st : ParserState)
    (rst now : Nat) (line : JSStr) (inc : Bool) (f : Fragment)
    (hfr : InvFrags opts st) (hc : st.currentFragment = some f)
    (hkey : jsStartsWith f.key (strOf "temp-") = true) :
    InvFrags opts (continueDefaultBlock opts st rst now line inc).1 ∧
    ((continueDefaultBlock opts st rst now line inc).1.currentFragment = none ∨
      ∃ g, (continueDefaultBlock opts st rst now line inc).1.currentFragment =
          some g ∧
        g.type = f.type ∧ g.key = f.key ∧ g.isComplete = f.isComplete) := by
  unfold continueDefaultBlock
  rw [hc]
  dsimp only
  split
  · constructor
    · rw [invFrags_advancePosition]
      exact finalizeCurrentFragment_inv opts _ rst now
        { f with isComplete := true } hfr rfl rfl hkey
    · left
      rw [advancePosition_currentFragment]
      exact finalizeCurrentFragment_clears opts _ rst now _ rfl
  · constructor
    · rw [invFrags_advancePosition, invFrags_advancePosition]
      exact hfr
    · right
      simp only [advancePosition_currentFragment]
      exact ⟨_, rfl, rfl, rfl, rfl⟩

/-- Continuing a codeblock preserves the invariants. -/
theorem continueCodeBlock_inv (opts : ParserOptions) (st : ParserState)
    (rst now : Nat) (line : JSStr) (inc : Bool) (f : Fragment)
    (hfr : InvFrags opts st) (hc : st.currentFragment = some f)
    (hkey : jsStartsWith f.key (strOf "temp-") = true) :
    InvFrags opts (continueCodeBlock opts st rst now line inc).1 ∧
    ((continueCodeBlock opts st rst now line inc).1.currentFragment = none ∨
      ∃ g, (continueCodeBlock opts st rst now line inc).1.currentFragment =
          some g ∧
        g.type = f.type ∧ g.key = f.key ∧ g.isComplete = f.isComplete) := by
  unfold continueCodeBlock
  rw [hc]
  dsimp only
  split
  · set f3 : Fragment := { f with rawContent := f.rawContent ++ '\n' :: line, isComplete := true } with hf3
    obtain ⟨d, hd⟩ := finalizeCodeBlock_shape { st with currentFragment := some f3 } f3 rfl
    rw [hd]
    constructor
    · rw [invFrags_advancePosition]
      exact finalizeCurrentFragment_inv opts _ rst now _ hfr rfl rfl hkey
    · left
      rw [advancePosition_currentFragment]
      exact finalizeCurrentFragment_clears opts _ rst now _ rfl
  · set raw2 : JSStr :=
      (if !jsEndsWith f.rawContent '\n' then f.rawContent ++ ['\n']
       else f.rawContent) ++ line with hraw2
    obtain ⟨d, hd⟩ := updateCodeBlockData_shape opts { st with currentFragment := some { f with rawContent := raw2 } } line inc { f with rawContent := raw2 } rfl
    rw [hd]
    constructor
    · rw [invFrags_advancePosition]
      exact hfr
    · right
      simp only [advancePosition_currentFragment]
      exact ⟨_, rfl, rfl, rfl, rfl⟩

/-- Continuing any open fragment preserves the invariants. -/
theorem continueFragment_inv (opts : ParserOptions) (st : ParserState)
    (rst now : Nat) (line : JSStr) (inc : Bool) (f : Fragment)
    (hfr : InvFrags opts st) (hc : st.currentFragment = some f)
    (hkey : jsStartsWith f.key (strOf "temp-") = true) :
    InvFrags opts (continueFragment opts st rst now line inc).1 ∧
    ((continueFragment opts st rst now line inc).1.currentFragment = none ∨
      ∃ g, (continueFragment opts st rst now line inc).1.currentFragment =
          some g ∧
        g.type = f.type ∧ g.key = f.key ∧ g.isComplete = f.isComplete) := by
  unfold continueFragment
  rw [hc]
  dsimp only
  split
  · exact continueCodeBlock_inv opts st rst now line inc f hfr hc hkey
  · exact continueList_inv opts st rst now line inc f hfr hc hkey
  · exact continueBlockquote_inv opts st rst now line inc f hfr hc hkey
  · exact continueDefaultBlock_inv opts st rst now line inc f hfr hc hkey

/-- Starting a fragment from a line preserves the invariants: either no
fragment is open afterwards, or the open fragment is fresh — incomplete,
temporary-keyed and (when the line was terminated) of a multi-line
type. -/
theorem startNewFragmentFromLine_inv (opts : ParserOptions)
    (st : ParserState) (rst now : Nat) (line : JSStr) (inc : Bool)
    (hfr : InvFrags opts st) (hc : st.currentFragment = none) :
    InvFrags opts (startNewFragmentFromLine opts st rst now line inc).1 ∧
    ((startNewFragmentFromLine opts st rst now line inc).1.currentFragment =
        none ∨
      ∃ g, (startNewFragmentFromLine opts st rst now line
            inc).1.currentFragment = some g ∧
        g.isComplete = false ∧ jsStartsWith g.key (strOf "temp-") = true ∧
        (inc = false → g.type = FragmentType.codeblock ∨
          g.type = FragmentType.list ∨ g.type = FragmentType.blockquote ∨
          g.type = FragmentType.paragraph)) := by
  unfold startNewFragmentFromLine
  by_cases hblank : jsTrimmedEmpty line = true
  · rw [if_pos hblank, hc]
    rw [if_neg (by simp)]
    dsimp only
    constructor
    · split
      · rw [invFrags_advancePosition, invFrags_advancePosition]
        exact hfr
      · rw [invFrags_advancePosition]
        exact hfr
    · left
      split <;>
        simp [advancePosition_currentFragment, hc]
  · rw [if_neg hblank]
    dsimp only
    cases hp : findBlockPattern line with
    | none =>
      simp only [Option.map_none', Option.getD_none, Bool.false_and]
      rw [if_neg (by simp)]
      constructor
      · split
        · rw [invFrags_advancePosition, invFrags_advancePosition]
          exact hfr
        · rw [invFrags_advancePosition]
          exact hfr
      · right
        refine ⟨createFragment opts st now FragmentType.paragraph line false
            (createInitialData rst FragmentType.paragraph line).1 none,
          ?_, ?_, ?_, fun _ => ?_⟩
        · split <;>
            simp [advancePosition_currentFragment]
        · rfl
        · exact temp_key_starts_temp line st.fragments.length
            opts.hashAlgorithm now
        · right; right; right; rfl
    | some p =>
      simp only [Option.map_some', Option.getD_some]
      by_cases hsingle : p.isSingleLine = true
      · by_cases hinc : inc = true
        · rw [hsingle, hinc]
          simp only [Bool.not_true, Bool.and_false]
          rw [if_neg (by simp)]
          constructor
          · split
            · rw [invFrags_advancePosition, invFrags_advancePosition]
              exact hfr
            · rw [invFrags_advancePosition]
              exact hfr
          · right
            refine ⟨createFragment opts st now p.type line false
                (createInitialData rst p.type line).1 none,
              ?_, ?_, ?_, fun hinc2 => ?_⟩
            · split <;>
                simp [advancePosition_currentFragment]
            · rfl
            · exact temp_key_starts_temp line st.fragments.length
                opts.hashAlgorithm now
            · exact Bool.noConfusion hinc2
        · have hincf : inc = false := by
            cases inc
            · rfl
            · exact absurd rfl hinc
          rw [hsingle, hincf]
          rw [if_pos (by simp)]
          dsimp only
          constructor
          · rw [invFrags_advancePosition, invFrags_advancePosition]
            split
            · split
              · intro g hg
                dsimp only at hg
                rcases List.mem_append.mp hg with h | h
                · exact hfr g h
                · exact splitImages_inv opts st now _
                    (createFragment_complete opts st now _ line _ none).1
                    (createFragment_complete opts st now _ line _ none).2.1 g h
              · intro g hg
                dsimp only at hg
                rcases List.mem_append.mp hg with h | h
                · exact hfr g h
                · rcases List.mem_singleton.mp h with rfl
                  exact ⟨(createFragment_complete opts st now _ line _ none).1,
                    (createFragment_complete opts st now _ line _ none).2.1⟩
            · intro g hg
              dsimp only at hg
              rcases List.mem_append.mp hg with h | h
              · exact hfr g h
              · rcases List.mem_singleton.mp h with rfl
                exact ⟨(createFragment_complete opts st now _ line _ none).1,
                  (createFragment_complete opts st now _ line _ none).2.1⟩
          · left
            rw [advancePosition_currentFragment, advancePosition_currentFragment]
            split
            · split <;> exact hc
            · exact hc
      · have hsinglef : p.isSingleLine = false := by
          cases hps : p.isSingleLine
          · rfl
          · exact absurd hps hsingle
        rw [hsinglef]
        simp only [Bool.false_and]
        rw [if_neg (by simp)]
        constructor
        · split
          · rw [invFrags_advancePosition, invFrags_advancePosition]
            exact hfr
          · rw [invFrags_advancePosition]
            exact hfr
        · right
          refine ⟨createFragment opts st now p.type line false
              (createInitialData rst p.type line).1 none,
            ?_, ?_, ?_, fun _ => ?_⟩
          · split <;>
              simp [advancePosition_currentFragment]
          · rfl
          · exact temp_key_starts_temp line st.fragments.length
              opts.hashAlgorithm now
          · exact findBlockPattern_multiline line p hp hsinglef

/-- One loop step of `parseIncremental` preserves the invariants; when
the line is terminated it also preserves the multi-line-type constraint
on the open fragment. -/
theorem processLine_inv (opts : ParserOptions) (now : Nat) (st : ParserState)
    (rst : Nat) (line : JSStr) (flag : Bool)
    (hfr : InvFrags opts st) (hcur : InvCur st) (htype : InvCurType st) :
    InvFrags opts (processLine opts now (st, rst) (line, flag)).1 ∧
    InvCur (processLine opts now (st, rst) (line, flag)).1 ∧
    (flag = true → InvCurType (processLine opts now (st, rst) (line, flag)).1) := by
  unfold processLine
  dsimp only
  cases hcurc : st.currentFragment with
  | none =>
    have h := startNewFragmentFromLine_inv opts st rst now line (!flag) hfr hcurc
    refine ⟨h.1, ?_, ?_⟩
    · intro g hg
      rcases h.2 with hnone | ⟨g', hg', hic, hk, _⟩
      · rw [hnone] at hg; cases hg
      · rw [hg'] at hg
        obtain rfl := Option.some.inj hg
        exact ⟨hic, hk⟩
    · intro hflag g hg
      rcases h.2 with hnone | ⟨g', hg', _, _, htypeg⟩
      · rw [hnone] at hg; cases hg
      · rw [hg'] at hg
        obtain rfl := Option.some.inj hg
        exact htypeg (by rw [hflag]; rfl)
  | some f =>
    dsimp only
    have hcf := hcur f hcurc
    by_cases hcont : shouldContinueFragment f line flag = true
    · rw [if_pos hcont]
      have h := continueFragment_inv opts st rst now line (!flag) f hfr hcurc
        hcf.2
      refine ⟨h.1, ?_, ?_⟩
      · intro g hg
        rcases h.2 with hnone | ⟨g', hg', ht', hk', hic'⟩
        · rw [hnone] at hg; cases hg
        · rw [hg'] at hg
          obtain rfl := Option.some.inj hg
          exact ⟨by rw [hic']; exact hcf.1, by rw [hk']; exact hcf.2⟩
      · intro _ g hg
        rcases h.2 with hnone | ⟨g', hg', ht', _, _⟩
        · rw [hnone] at hg; cases hg
        · rw [hg'] at hg
          obtain rfl := Option.some.inj hg
          rw [ht']
          exact htype f hcurc
    · rw [if_neg hcont]
      have hfalse : shouldContinueFragment f line flag = false := by
        cases hb : shouldContinueFragment f line flag
        · rfl
        · exact absurd hb hcont
      have htypes := htype f hcurc
      have hne1 : f.type ≠ FragmentType.heading := by
        rcases htypes with h | h | h | h <;> simp [h]
      have hne2 : f.type ≠ FragmentType.thematicBreak := by
        rcases htypes with h | h | h | h <;> simp [h]
      by_cases hcb : f.type = FragmentType.codeblock
      · exact absurd (shouldContinueFragment_codeblock f line flag hcb)
          hcont
      · obtain ⟨hblank, hflag⟩ :=
          (shouldContinueFragment_eq_false f line flag hne1 hne2 hcb).mp hfalse
        rw [if_neg (show ¬((!jsTrimmedEmpty line) = true) by
          rw [hblank]; simp)]
        rw [if_pos ⟨hblank, hflag⟩]
        refine ⟨?_, ?_, ?_⟩
        · exact finalizeCurrentFragment_inv opts _ rst now
            { f with isComplete := true } hfr rfl rfl hcf.2
        · intro g hg
          rw [finalizeCurrentFragment_clears opts _ rst now _ rfl] at hg
          cases hg
        · intro _ g hg
          rw [finalizeCurrentFragment_clears opts _ rst now _ rfl] at hg
          cases hg

/-- Folding the per-line loop over flagged lines preserves the confirmed
and open-fragment invariants, provided it starts from a state where the
open fragment is also of a multi-line type. -/
theorem foldl_processLine_inv (opts : ParserOptions) (now : Nat)
    (lines : List JSStr) (b : Bool) (st : ParserState) (rst : Nat)
    (hfr : InvFrags opts st) (hcur : InvCur st) (htype : InvCurType st) :
    InvFrags opts ((withFlags lines b).foldl (processLine opts now) (st, rst)).1 ∧
    InvCur ((withFlags lines b).foldl (processLine opts now) (st, rst)).1 := by
  induction lines generalizing st rst with
  | nil => exact ⟨hfr, hcur⟩
  | cons l ls ih =>
    cases ls with
    | nil =>
      have h := processLine_inv opts now st rst l b hfr hcur htype
      exact ⟨h.1, h.2.1⟩
    | cons l2 ls2 =>
      have h := processLine_inv opts now st rst l true hfr hcur htype
      have hrec := ih (processLine opts now (st, rst) (l, true)).1
        (processLine opts now (st, rst) (l, true)).2 h.1 h.2.1 (h.2.2 rfl)
      rw [Prod.mk.eta] at hrec
      exact hrec

/-- Re-parsing the whole buffer yields a state satisfying the key
invariants. -/
theorem parseIncremental_inv (opts : ParserOptions) (st : ParserState)
    (rst now : Nat) :
    InvFrags opts (parseIncremental opts st rst now).1 ∧
    InvCur (parseIncremental opts st rst now).1 := by
  unfold parseIncremental
  dsimp only
  exact foldl_processLine_inv opts now _ _ _ rst
    (fun g hg => absurd hg (List.not_mem_nil g))
    (fun g hg => by cases hg) (fun g hg => by cases hg)

/-- `appendChunk` preserves the key invariants. -/
theorem appendChunk_inv (opts : ParserOptions) (acc : ParserState × Nat)
    (chunk : JSStr) (now : Nat) (hfr : InvFrags opts acc.1)
    (hcur : InvCur acc.1) :
    InvFrags opts (appendChunk opts acc chunk now).1 ∧
    InvCur (appendChunk opts acc chunk now).1 := by
  unfold appendChunk
  split
  · exact ⟨hfr, hcur⟩
  · exact parseIncremental_inv opts _ _ now

/-- `finalize` preserves the key invariants (and clears the open
fragment). -/
theorem finalizeState_inv (opts : ParserOptions) (acc : ParserState × Nat)
    (now : Nat) (hfr : InvFrags opts acc.1) (hcur : InvCur acc.1) :
    InvFrags opts (finalizeState opts acc now).1 ∧
    InvCur (finalizeState opts acc now).1 := by
  have hmid : InvFrags opts
      (match acc.1.currentFragment with
        | some f =>
          finalizeCurrentFragment opts
            { acc.1 with currentFragment := some { f with isComplete := true } }
            acc.2 now
        | none => acc).1 := by
    cases hcc : acc.1.currentFragment with
    | none => exact hfr
    | some f =>
      exact finalizeCurrentFragment_inv opts _ acc.2 now
        { f with isComplete := true } hfr rfl rfl (hcur f hcc).2
  constructor
  · intro g hg
    have hg' : g ∈ mapWithIndex (finalizeReKey opts now) 0
        (match acc.1.currentFragment with
          | some f =>
            finalizeCurrentFragment opts
              { acc.1 with currentFragment := some { f with isComplete := true } }
              acc.2 now
          | none => acc).1.fragments := hg
    obtain ⟨j, x, hx, rfl⟩ := mapWithIndex_mem _ _ _ g hg'
    have hxinv := hmid x hx
    unfold finalizeReKey
    split
    · exact ⟨hxinv.1,
        generateFragmentKey_complete x.rawContent j opts.hashAlgorithm now⟩
    · exact hxinv
  · intro g hg
    rw [finalizeState_clears opts acc now] at hg
    cases hg

/-- Every reachable state satisfies the key invariants. -/
theorem reached_inv (opts : ParserOptions) (acc : ParserState × Nat)
    (h : Reached opts acc) : InvFrags opts acc.1 ∧ InvCur acc.1 := by
  induction h with
  | init =>
    exact ⟨fun g hg => absurd hg (List.not_mem_nil g), fun g hg => by cases hg⟩
  | stepAppend acc chunk now _ ih =>
    exact appendChunk_inv opts acc chunk now ih.1 ih.2
  | stepFinalize acc now _ ih =>
    exact finalizeState_inv opts acc now ih.1 ih.2

/-- The position fix-up leaves every other field unchanged. -/
theorem fixPosition_type (st : ParserState) (f : Fragment) :
    (fixPosition st f).type = f.type := by
  unfold fixPosition; split <;> rfl

/-- The position fix-up leaves the completion flag unchanged. -/
theorem fixPosition_isComplete (st : ParserState) (f : Fragment) :
    (fixPosition st f).isComplete = f.isComplete := by
  unfold fixPosition; split <;> rfl

/-- The position fix-up leaves the raw content unchanged. -/
theorem fixPosition_rawContent (st : ParserState) (f : Fragment) :
    (fixPosition st f).rawContent = f.rawContent := by
  unfold fixPosition; split <;> rfl

/-- Key stabilization leaves the type unchanged. -/
theorem stabilizeKey_type (opts : ParserOptions) (st : ParserState)
    (now : Nat) (f : Fragment) :
    (stabilizeKey opts st now f).type = f.type := by
  unfold stabilizeKey; split <;> rfl

/-- Key stabilization leaves the completion flag unchanged. -/
theorem stabilizeKey_isComplete (opts : ParserOptions) (st : ParserState)
    (now : Nat) (f : Fragment) :
    (stabilizeKey opts st now f).isComplete = f.isComplete := by
  unfold stabilizeKey; split <;> rfl

/-- Key stabilization leaves the raw content unchanged. -/
theorem stabilizeKey_rawContent (opts : ParserOptions) (st : ParserState)
    (now : Nat) (f : Fragment) :
    (stabilizeKey opts st now f).rawContent = f.rawContent := by
  unfold stabilizeKey; split <;> rfl

/-- On a fragment that is not a paragraph or blockquote,
`finalizeCurrentFragment` confirms exactly the stabilized fragment,
without image splitting. -/
theorem finalizeCurrentFragment_nonsplit (opts : ParserOptions)
    (st : ParserState) (rst now : Nat) (f : Fragment)
    (hc : st.currentFragment = some f)
    (h1 : f.type ≠ FragmentType.paragraph)
    (h2 : f.type ≠ FragmentType.blockquote) :
    finalizeCurrentFragment opts st rst now =
      ({ st with
          fragments :=
            st.fragments ++ [stabilizeKey opts st now (fixPosition st f)],
          currentFragment := none }, rst) := by
  unfold finalizeCurrentFragment
  rw [hc]
  dsimp only
  rw [if_neg (by
    rw [stabilizeKey_type, fixPosition_type]
    exact fun h => h.elim h1 h2)]

/-- C9: finalize is idempotent — with no intervening appendChunk, a second
`finalize()` returns exactly the fragment sequence of the first. -/
theorem C9_finalize_idempotent (opts : ParserOptions)
    (acc : ParserState × Nat) (now1 now2 : Nat) :
    getFragments (finalizeState opts (finalizeState opts acc now1) now2).1 =
      getFragments (finalizeState opts acc now1).1 := by
  rw [finalizeState_idem]

/-- C8: after any sequence of appendChunk/finalize calls, the snapshot
returned by `finalize()` contains only complete fragments whose keys carry
the stable prefix, and no fragment remains open afterwards. -/
theorem C8_finalize_all_complete_stable (opts : ParserOptions)
    (acc : ParserState × Nat) (now : Nat) (h : Reached opts acc) :
    (∀ f ∈ getFragments (finalizeState opts acc now).1,
      f.isComplete = true ∧ jsStartsWith f.key (strOf "frag-") = true) ∧
    (finalizeState opts acc now).1.currentFragment = none := by
  obtain ⟨hfr, hcur⟩ := reached_inv opts acc h
  have hres := finalizeState_inv opts acc now hfr hcur
  refine ⟨?_, finalizeState_clears opts acc now⟩
  intro f hf
  unfold getFragments at hf
  rcases List.mem_append.mp hf with hm | hm
  · obtain ⟨hc, hk⟩ := hres.1 f hm
    exact ⟨hc, by rw [hk]; exact frag_key_starts_frag _⟩
  · rw [finalizeState_clears opts acc now] at hm
    cases hm

/-- C8 witness: finalizing a session that fed "hello" as one chunk. -/
theorem C8_witness :
    helloFinalSession.1.currentFragment = none ∧
    helloFinalFragment ∈ getFragments helloFinalSession.1 ∧
    helloFinalFragment.isComplete = true ∧
    jsStartsWith helloFinalFragment.key (strOf "frag-") = true :=
  have h := C8_finalize_all_complete_stable defaultOptions
    (appendChunk defaultOptions (initialState, 0) (strOf "hello") 1) 2
    (Reached.stepAppend (initialState, 0) (strOf "hello") 1 Reached.init)
  have hmem : helloFinalFragment ∈ getFragments helloFinalSession.1 := by decide
  ⟨h.2, hmem, (h.1 helloFinalFragment hmem).1, (h.1 helloFinalFragment hmem).2⟩

/-- C1: in any two reachable parser states configured with the same hash
algorithm, complete fragments with identical rawContent carry identical
keys, each equal to the stable prefix followed by the content hash. -/
theorem C1_stable_key_content_determined (opts1 opts2 : ParserOptions)
    (acc1 acc2 : ParserState × Nat)
    (h1 : Reached opts1 acc1) (h2 : Reached opts2 acc2)
    (halg : opts1.hashAlgorithm = opts2.hashAlgorithm)
    (f g : Fragment) (hf : f ∈ getFragments acc1.1)
    (hg : g ∈ getFragments acc2.1)
    (hfc : f.isComplete = true) (hgc : g.isComplete = true)
    (hraw : f.rawContent = g.rawContent) :
    f.key = g.key ∧
    f.key = strOf "frag-" ++ hashOf opts1.hashAlgorithm f.rawContent := by
  obtain ⟨hfr1, hcur1⟩ := reached_inv opts1 acc1 h1
  obtain ⟨hfr2, hcur2⟩ := reached_inv opts2 acc2 h2
  have hkf : f.key = strOf "frag-" ++ hashOf opts1.hashAlgorithm f.rawContent := by
    unfold getFragments at hf
    rcases List.mem_append.mp hf with hm | hm
    · exact (hfr1 f hm).2
    · cases hcc : acc1.1.currentFragment with
      | none => rw [hcc] at hm; cases hm
      | some x =>
        rw [hcc] at hm
        rcases List.mem_singleton.mp hm with rfl
        exact absurd hfc (by rw [(hcur1 f hcc).1]; simp)
  have hkg : g.key = strOf "frag-" ++ hashOf opts2.hashAlgorithm g.rawContent := by
    unfold getFragments at hg
    rcases List.mem_append.mp hg with hm | hm
    · exact (hfr2 g hm).2
    · cases hcc : acc2.1.currentFragment with
      | none => rw [hcc] at hm; cases hm
      | some x =>
        rw [hcc] at hm
        rcases List.mem_singleton.mp hm with rfl
        exact absurd hgc (by rw [(hcur2 g hcc).1]; simp)
  exact ⟨by rw [hkf, hkg, halg, hraw], hkf⟩

/-- C1 witness: the same heading fed as one chunk and as two chunks
produces fragments with the same stable content-derived key. -/
theorem C1_witness :
    headingFragA ∈ getFragments headingRunA.1 ∧
    headingFragB ∈ getFragments headingRunB.1 ∧
    headingFragA.isComplete = true ∧ headingFragB.isComplete = true ∧
    headingFragA.rawContent = headingFragB.rawContent ∧
    headingFragA.key = headingFragB.key ∧
    headingFragA.key =
      strOf "frag-" ++ hashOf defaultOptions.hashAlgorithm headingFragA.rawContent :=
  have hc := C1_stable_key_content_determined defaultOptions defaultOptions
    headingRunA headingRunB
    (Reached.stepAppend (initialState, 0) (strOf "# Hi\n") 3 Reached.init)
    (Reached.stepAppend (appendChunk defaultOptions (initialState, 0) (strOf "# ") 4)
      (strOf "Hi\n") 5
      (Reached.stepAppend (initialState, 0) (strOf "# ") 4 Reached.init))
    rfl headingFragA headingFragB (by decide) (by decide) (by decide) (by decide)
    (by decide)
  ⟨by decide, by decide, by decide, by decide, by decide, hc.1, hc.2⟩

/-- C7: during re-parsing, an open codeblock fragment is closed exactly by
a terminated line equal to the fence marker; every other line — including
an unterminated fence and blank lines — is accumulated verbatim into the
still-open fragment without touching the confirmed list. -/
theorem C7_fence_closing (opts : ParserOptions) (now : Nat)
    (st : ParserState) (rst : Nat) (line : JSStr) (flag : Bool)
    (f : Fragment) (hc : st.currentFragment = some f)
    (hty : f.type = FragmentType.codeblock) :
    (line = strOf "```" ∧ flag = true →
      (processLine opts now (st, rst) (line, flag)).1.currentFragment = none ∧
      ∃ g, (processLine opts now (st, rst) (line, flag)).1.fragments =
          st.fragments ++ [g] ∧
        g.isComplete = true ∧ g.rawContent = f.rawContent ++ '\n' :: line) ∧
    (¬(line = strOf "```" ∧ flag = true) →
      (processLine opts now (st, rst) (line, flag)).1.fragments =
        st.fragments ∧
      ∃ g, (processLine opts now (st, rst) (line, flag)).1.currentFragment =
          some g ∧
        g.isComplete = f.isComplete ∧ g.type = FragmentType.codeblock ∧
        g.key = f.key ∧
        g.rawContent =
          (if !jsEndsWith f.rawContent '\n' then f.rawContent ++ ['\n']
           else f.rawContent) ++ line) := by
  unfold processLine
  dsimp only
  rw [hc]
  dsimp only
  rw [if_pos (shouldContinueFragment_codeblock f line flag hty)]
  unfold continueFragment
  rw [hc]
  dsimp only
  rw [hty]
  dsimp only
  unfold continueCodeBlock
  rw [hc]
  dsimp only
  constructor
  · rintro ⟨rfl, rfl⟩
    rw [if_pos ⟨rfl, rfl⟩]
    set f3 : Fragment := { f with rawContent := f.rawContent ++ '\n' :: strOf "```", isComplete := true } with hf3
    obtain ⟨d, hd⟩ := finalizeCodeBlock_shape { st with currentFragment := some f3 } f3 rfl
    rw [hd]
    rw [finalizeCurrentFragment_nonsplit opts _ rst now { f3 with data := d } rfl (by show f.type ≠ _; rw [hty]; decide) (by show f.type ≠ _; rw [hty]; decide)]
    refine ⟨?_, ?_⟩
    · rw [advancePosition_currentFragment]
    · rw [advancePosition_fragments]
      refine ⟨_, rfl, ?_, ?_⟩
      · rw [stabilizeKey_isComplete, fixPosition_isComplete]
      · rw [stabilizeKey_rawContent, fixPosition_rawContent]
  · intro hne
    rw [if_neg (by simpa using hne)]
    set raw2 : JSStr :=
      (if !jsEndsWith f.rawContent '\n' then f.rawContent ++ ['\n']
       else f.rawContent) ++ line with hraw2
    obtain ⟨d, hd⟩ := updateCodeBlockData_shape opts { st with currentFragment := some { f with rawContent := raw2 } } line (!flag) { f with rawContent := raw2 } rfl
    rw [hd]
    refine ⟨?_, ?_⟩
    · rw [advancePosition_fragments]
    · simp only [advancePosition_currentFragment]
      exact ⟨_, rfl, rfl, hty, rfl, rfl⟩

/-- C7 witness: the open fence fragment closes on a terminated fence line
and stays open on a plain body line. -/
theorem C7_witness :
    (processLine defaultOptions 7 (sampleCodeState, 0) (strOf "```", true)).1.currentFragment = none ∧
    (processLine defaultOptions 7 (sampleCodeState, 0) (strOf "abc", true)).1.fragments = sampleCodeState.fragments :=
  have h1 := C7_fence_closing defaultOptions 7 sampleCodeState 0 (strOf "```")
    true sampleCodeFragment rfl rfl
  have h2 := C7_fence_closing defaultOptions 7 sampleCodeState 0 (strOf "abc")
    true sampleCodeFragment rfl rfl
  ⟨(h1.1 ⟨rfl, rfl⟩).1, (h2.2 (by decide)).1⟩


/-- A successful image-regex match at the head of a string reconstructs
it: the matched text followed by the remainder is the whole string. -/
theorem tryImage_append (t m a s rest : JSStr) (title : Option JSStr)
    (h : tryImage t = some (m, a, s, title, rest)) : m ++ rest = t := by
  unfold tryImage at h
  split at h
  · dsimp only at h
    split at h
    · split at h
      · exact Option.noConfusion h
      · split at h
        · simp only [Option.some.injEq, Prod.mk.injEq] at h
          obtain ⟨rfl, rfl, rfl, rfl, rfl⟩ := h
          rename_i r0 x1 r2 heq1 hsrc x2 rest2 heq2
          conv_rhs => rw [← List.takeWhile_append_dropWhile (fun c => c ≠ ']') r0, heq1]
          conv_rhs => rw [← List.takeWhile_append_dropWhile (fun c => !jsWhitespaceChar c && c ≠ ')') r2, heq2]
          simp [List.append_assoc]
        · split at h
          · split at h
            · split at h
              · simp only [Option.some.injEq, Prod.mk.injEq] at h
                obtain ⟨rfl, rfl, rfl, rfl, rfl⟩ := h
                rename_i r0 x4 r2 heq1 hsrc x3 c r3 x2 heq2 hws x1 r4 heq3 x0 rest2 heq4
                conv_rhs => rw [← List.takeWhile_append_dropWhile (fun c => c ≠ ']') r0, heq1]
                conv_rhs => rw [← List.takeWhile_append_dropWhile (fun c => !jsWhitespaceChar c && c ≠ ')') r2, heq2]
                conv_rhs => rw [← List.takeWhile_append_dropWhile jsWhitespaceChar (c :: r3), heq3]
                conv_rhs => rw [← List.takeWhile_append_dropWhile (fun d => d ≠ '"') r4, heq4]
                simp [List.append_assoc]
              · exact Option.noConfusion h
            · exact Option.noConfusion h
          · exact Option.noConfusion h
        · exact Option.noConfusion h
    · exact Option.noConfusion h
  · exact Option.noConfusion h

/-- The leftmost-match scan reconstructs its input: the text before the
match, the match and the remainder concatenate to the whole string. -/
theorem findImage_append (t : JSStr) :
    ∀ (pre m a s rest : JSStr) (title : Option JSStr),
    findImage t = some (pre, (m, a, s, title), rest) → pre ++ m ++ rest = t := by
  induction t with
  | nil => intro pre m a s rest title h; exact Option.noConfusion h
  | cons c t ih =>
    intro pre m a s rest title h
    unfold findImage at h
    cases htry : tryImage (c :: t) with
    | some v =>
      obtain ⟨m1, a1, s1, t1, r1⟩ := v
      rw [htry] at h
      dsimp only at h
      simp only [Option.some.injEq, Prod.mk.injEq] at h
      obtain ⟨rfl, ⟨rfl, rfl, rfl, rfl⟩, rfl⟩ := h
      simpa using tryImage_append (c :: t) m1 a1 s1 r1 t1 htry
    | none =>
      rw [htry] at h
      dsimp only at h
      cases hfi : findImage t with
      | none => rw [hfi] at h; exact Option.noConfusion h
      | some w =>
        obtain ⟨pre1, ⟨m1, a1, s1, t1⟩, r1⟩ := w
        rw [hfi] at h
        dsimp only at h
        simp only [Option.some.injEq, Prod.mk.injEq] at h
        obtain ⟨rfl, ⟨rfl, rfl, rfl, rfl⟩, rfl⟩ := h
        have := ih pre1 m1 a1 s1 r1 t1 hfi
        simpa [List.append_assoc] using congrArg (c :: ·) this

/-- Whatever the fuel, the exec-loop part list partitions the content:
its parts' contents concatenate back to the input. -/
theorem imagePartsFuel_flatten : ∀ (fuel : Nat) (t : JSStr),
    ((imagePartsFuel fuel t).map ImagePart.content).flatten = t := by
  intro fuel
  induction fuel with
  | zero =>
    intro t
    cases t with
    | nil => rfl
    | cons c t => simp [imagePartsFuel, ImagePart.content]
  | succ fuel ih =>
    intro t
    cases t with
    | nil => rfl
    | cons c t =>
      simp only [imagePartsFuel]
      cases hfi : findImage (c :: t) with
      | none => simp [ImagePart.content]
      | some v =>
        obtain ⟨pre, ⟨m1, a1, s1, t1⟩, rest⟩ := v
        dsimp only
        have hrec := ih rest
        have happ := findImage_append (c :: t) pre m1 a1 s1 rest t1 hfi
        by_cases hpre : pre = []
        · subst hpre
          simp only [if_pos rfl, List.nil_append, List.map_cons,
            List.flatten_cons, hrec]
          simpa [ImagePart.content, hrec] using happ
        · rw [if_neg hpre]
          simp only [List.cons_append, List.nil_append, List.map_cons,
            List.flatten_cons, hrec]
          simpa [ImagePart.content, hrec, List.append_assoc] using happ

/-- The image-splitting part list partitions the raw content. -/
theorem imageParts_flatten (content : JSStr) :
    ((imageParts content).map ImagePart.content).flatten = content :=
  imagePartsFuel_flatten _ content

/-- Mapping over an index-aware map composes pointwise. -/
theorem mapWithIndex_map (F : Nat → α → β) (G : β → γ) :
    ∀ (i : Nat) (l : List α),
    (mapWithIndex F i l).map G = mapWithIndex (fun j x => G (F j x)) i l := by
  intro i l
  induction l generalizing i with
  | nil => rfl
  | cons x xs ih =>
    rw [mapWithIndex_cons, mapWithIndex_cons, List.map_cons, ih]

/-- Pointwise-equal functions give equal index-aware maps. -/
theorem mapWithIndex_congrFun (F G : Nat → α → β)
    (h : ∀ i x, F i x = G i x) :
    ∀ (i : Nat) (l : List α), mapWithIndex F i l = mapWithIndex G i l := by
  intro i l
  induction l generalizing i with
  | nil => rfl
  | cons x xs ih =>
    rw [mapWithIndex_cons, mapWithIndex_cons, ih, h]

/-- An index-aware map with an index-independent function is a map. -/
theorem mapWithIndex_constIndex (H : α → β) :
    ∀ (i : Nat) (l : List α), mapWithIndex (fun _ x => H x) i l = l.map H := by
  intro i l
  induction l generalizing i with
  | nil => rfl
  | cons x xs ih =>
    rw [mapWithIndex_cons, List.map_cons, ih]

/-- C6 (amended): image splitting partitions the raw content into spans;
with no image markup the fragment is returned unchanged; with image
markup the resulting fragments are, in order, exactly the image spans
(image-typed, rawContent the matched markup) and those text spans that
are not whitespace-only (of the container type) — whitespace-only text
spans, not just empty ones, are dropped; and the spec example yields
paragraph("Text "), image(alt "a", src "u.png"), paragraph(" more"). -/
theorem C6_image_splitting_amended (opts : ParserOptions) (st : ParserState)
    (now : Nat) (f : Fragment) :
    ((imageParts f.rawContent).map ImagePart.content).flatten = f.rawContent ∧
    ((imageParts f.rawContent).any ImagePart.isImage = false →
      splitImages opts st now f = [f]) ∧
    ((imageParts f.rawContent).any ImagePart.isImage = true →
      (splitImages opts st now f).map
          (fun g => (g.type, g.rawContent, g.isComplete)) =
        ((imageParts f.rawContent).filter
            (fun p => p.isImage || !jsTrimmedEmpty p.content)).map
          (fun p =>
            (if p.isImage then FragmentType.image else f.type, p.content,
              f.isComplete))) ∧
    (getFragments imageExampleSession.1).map
        (fun g => (g.type, g.rawContent, g.data)) =
      [(FragmentType.paragraph, strOf "Text ",
        FragmentData.paragraphData (strOf "Text ") false),
       (FragmentType.image, strOf "![a](u.png)",
        FragmentData.imageData (strOf "a") (strOf "u.png") none),
       (FragmentType.paragraph, strOf " more",
        FragmentData.paragraphData (strOf " more") false)] := by
  refine ⟨imageParts_flatten f.rawContent, ?_, ?_, by decide⟩
  · intro h
    unfold splitImages
    dsimp only
    rw [h]
    rfl
  · intro h
    unfold splitImages
    dsimp only
    rw [h]
    simp only [Bool.not_true, Bool.false_eq_true, if_false]
    rw [mapWithIndex_map]
    rw [mapWithIndex_congrFun _
      (fun _ p => (if p.isImage then FragmentType.image else f.type, p.content,
        f.isComplete))
      (by intro i p; cases p <;> rfl)]
    rw [mapWithIndex_constIndex]

/-- C6 witness: a plain fragment is kept unchanged; a fragment with one
image splits into text, image, text. -/
theorem C6_witness :
    splitImages defaultOptions initialState 0 samplePlainFragment =
      [samplePlainFragment] ∧
    (splitImages defaultOptions initialState 0 sampleImageFragment).map
        (fun g => (g.type, g.rawContent, g.isComplete)) =
      [(FragmentType.paragraph, strOf "a ", true),
       (FragmentType.image, strOf "![x](y)", true),
       (FragmentType.paragraph, strOf " b", true)] :=
  have h1 := C6_image_splitting_amended defaultOptions initialState 0
    samplePlainFragment
  have h2 := C6_image_splitting_amended defaultOptions initialState 0
    sampleImageFragment
  ⟨h1.2.1 (by decide), by rw [h2.2.2.1 (by decide)]; decide⟩


/-- Observation equality gives equal types. -/
theorem obs_type (f g : Fragment) (h : Fragment.obs f = Fragment.obs g) :
    f.type = g.type := congrArg FragObs.type h

/-- Observation equality gives equal raw contents. -/
theorem obs_rawContent (f g : Fragment) (h : Fragment.obs f = Fragment.obs g) :
    f.rawContent = g.rawContent := congrArg FragObs.rawContent h

/-- Observation equality gives equal completion flags. -/
theorem obs_isComplete (f g : Fragment) (h : Fragment.obs f = Fragment.obs g) :
    f.isComplete = g.isComplete := congrArg FragObs.isComplete h

/-- Observation equality gives equal positions. -/
theorem obs_position (f g : Fragment) (h : Fragment.obs f = Fragment.obs g) :
    f.position = g.position := congrArg FragObs.position h

/-- Observation equality gives equal data observations. -/
theorem obs_dataObs (f g : Fragment) (h : Fragment.obs f = Fragment.obs g) :
    f.data.obs = g.data.obs := congrArg FragObs.dataObs h

/-- Observation equality gives equal keys once the fragment is
complete. -/
theorem obs_key_of_complete (f g : Fragment)
    (h : Fragment.obs f = Fragment.obs g) (hc : f.isComplete = true) :
    f.key = g.key := by
  have hk := congrArg FragObs.keyObs h
  have hgc : g.isComplete = true := (obs_isComplete f g h) ▸ hc
  simp only [Fragment.obs, hc, hgc, if_pos rfl] at hk
  exact Option.some.inj hk

/-- Observation equality of states gives equal fragment observations. -/
theorem sobs_fragments (st st' : ParserState)
    (h : ParserState.obs st = ParserState.obs st') :
    st.fragments.map Fragment.obs = st'.fragments.map Fragment.obs :=
  congrArg StateObs.fragments h

/-- Observation equality of states gives equal open-fragment
observations. -/
theorem sobs_current (st st' : ParserState)
    (h : ParserState.obs st = ParserState.obs st') :
    st.currentFragment.map Fragment.obs =
      st'.currentFragment.map Fragment.obs :=
  congrArg StateObs.currentFragment h

/-- Observation equality of states gives equal offsets. -/
theorem sobs_position (st st' : ParserState)
    (h : ParserState.obs st = ParserState.obs st') :
    st.position = st'.position := congrArg StateObs.position h

/-- Observation equality of states gives equal line cursors. -/
theorem sobs_line (st st' : ParserState)
    (h : ParserState.obs st = ParserState.obs st') :
    st.line = st'.line := congrArg StateObs.line h

/-- Observation equality of states gives equal column cursors. -/
theorem sobs_column (st st' : ParserState)
    (h : ParserState.obs st = ParserState.obs st') :
    st.column = st'.column := congrArg StateObs.column h

/-- Observation equality of states gives equal confirmed counts. -/
theorem sobs_length (st st' : ParserState)
    (h : ParserState.obs st = ParserState.obs st') :
    st.fragments.length = st'.fragments.length := by
  have := congrArg List.length (sobs_fragments st st' h)
  simpa using this


/-- Build a state-observation equality from its five components. -/
theorem sobs_ext (st st' : ParserState)
    (h1 : st.fragments.map Fragment.obs = st'.fragments.map Fragment.obs)
    (h2 : st.currentFragment.map Fragment.obs =
      st'.currentFragment.map Fragment.obs)
    (h3 : st.position = st'.position) (h4 : st.line = st'.line)
    (h5 : st.column = st'.column) : st.obs = st'.obs := by
  simp only [ParserState.obs]
  rw [h1, h2, h3, h4, h5]

/-- Build a fragment-observation equality from its six components. -/
theorem fobs_ext (f g : Fragment)
    (hk : (if f.isComplete then some f.key else none) =
      (if g.isComplete then some g.key else none))
    (ht : f.type = g.type) (hr : f.rawContent = g.rawContent)
    (hc : f.isComplete = g.isComplete) (hp : f.position = g.position)
    (hd : f.data.obs = g.data.obs) : f.obs = g.obs := by
  simp only [Fragment.obs]
  rw [hk, ht, hr, hc, hp, hd]

/-- Advancing the cursor over the same text preserves observation
equality. -/
theorem advancePosition_cong (t : JSStr) :
    ∀ (st st' : ParserState), st.obs = st'.obs →
    (advancePosition st t).obs = (advancePosition st' t).obs := by
  induction t with
  | nil => intro st st' h; exact h
  | cons c cs ih =>
    intro st st' h
    have hstep :
        (if c = '\n' then { st with position := st.position + 1, line := st.line + 1, column := 1 } else { st with position := st.position + 1, column := st.column + 1 }).obs =
        (if c = '\n' then { st' with position := st'.position + 1, line := st'.line + 1, column := 1 } else { st' with position := st'.position + 1, column := st'.column + 1 }).obs := by
      by_cases hc : c = '\n'
      · rw [if_pos hc, if_pos hc]
        exact sobs_ext _ _ (sobs_fragments st st' h) (sobs_current st st' h)
          (by rw [sobs_position st st' h]) (by rw [sobs_line st st' h]) rfl
      · rw [if_neg hc, if_neg hc]
        exact sobs_ext _ _ (sobs_fragments st st' h) (sobs_current st st' h)
          (by rw [sobs_position st st' h]) (sobs_line st st' h)
          (by rw [sobs_column st st' h])
    exact ih _ _ hstep

/-- The fresh-fragment data agrees observationally whatever the regex
scan state. -/
theorem createInitialData_obs (rst rst' : Nat) (ftype : FragmentType)
    (content : JSStr) :
    (createInitialData rst ftype content).1.obs =
      (createInitialData rst' ftype content).1.obs := by
  cases ftype <;> rfl

/-- Fragments created from observationally equal states, the same
payload text and observationally equal data are observationally
equal. -/
theorem createFragment_cong (opts : ParserOptions) (st st' : ParserState)
    (now now' : Nat) (ty : FragmentType) (raw : JSStr) (ic : Bool)
    (d d' : FragmentData) (idx : Option Nat)
    (hposw : st.position = st'.position) (hlinew : st.line = st'.line)
    (hcolw : st.column = st'.column) (hd : d.obs = d'.obs) :
    (createFragment opts st now ty raw ic d idx).obs =
      (createFragment opts st' now' ty raw ic d' idx).obs := by
  apply fobs_ext
  · cases ic with
    | false =>
      have e1 : (if (createFragment opts st now ty raw false d idx).isComplete then some (createFragment opts st now ty raw false d idx).key else none) = none := rfl
      have e2 : (if (createFragment opts st' now' ty raw false d' idx).isComplete then some (createFragment opts st' now' ty raw false d' idx).key else none) = none := rfl
      rw [e1, e2]
    | true =>
      have e1 : (if (createFragment opts st now ty raw true d idx).isComplete then some (createFragment opts st now ty raw true d idx).key else none) = some (generateFragmentKey raw (idx.getD st.fragments.length) true opts.hashAlgorithm now) := rfl
      have e2 : (if (createFragment opts st' now' ty raw true d' idx).isComplete then some (createFragment opts st' now' ty raw true d' idx).key else none) = some (generateFragmentKey raw (idx.getD st'.fragments.length) true opts.hashAlgorithm now') := rfl
      rw [e1, e2, generateFragmentKey_complete, generateFragmentKey_complete]
  · rfl
  · rfl
  · rfl
  · show SourcePosition.mk st.position (st.position + jsLength raw) st.line
        st.column =
      SourcePosition.mk st'.position (st'.position + jsLength raw) st'.line
        st'.column
    rw [hposw, hlinew, hcolw]
  · exact hd


/-- The position fix-up leaves the key unchanged. -/
theorem fixPosition_key (st : ParserState) (f : Fragment) :
    (fixPosition st f).key = f.key := by
  unfold fixPosition; split <;> rfl

/-- Key stabilization leaves the position unchanged. -/
theorem stabilizeKey_position (opts : ParserOptions) (st : ParserState)
    (now : Nat) (f : Fragment) :
    (stabilizeKey opts st now f).position = f.position := by
  unfold stabilizeKey; split <;> rfl

/-- Key stabilization leaves the data unchanged. -/
theorem stabilizeKey_data (opts : ParserOptions) (st : ParserState)
    (now : Nat) (f : Fragment) :
    (stabilizeKey opts st now f).data = f.data := by
  unfold stabilizeKey; split <;> rfl

/-- The position fix-up leaves the data unchanged. -/
theorem fixPosition_data (st : ParserState) (f : Fragment) :
    (fixPosition st f).data = f.data := by
  unfold fixPosition; split <;> rfl

/-- The key after stabilization, as a closed form. -/
theorem stabilizeKey_key (opts : ParserOptions) (st : ParserState)
    (now : Nat) (f : Fragment) :
    (stabilizeKey opts st now f).key =
      if f.isComplete ∧ jsStartsWith f.key (strOf "temp-") then
        strOf "frag-" ++ hashOf opts.hashAlgorithm f.rawContent
      else f.key := by
  unfold stabilizeKey
  split
  · dsimp only
    exact generateFragmentKey_complete f.rawContent st.fragments.length
      opts.hashAlgorithm now
  · rfl

/-- The fixed-up positions of two related fragments agree. -/
theorem fixPosition_position_cong (st st' : ParserState) (f f' : Fragment)
    (hposw : st.position = st'.position) (hp : f.position = f'.position) :
    (fixPosition st f).position = (fixPosition st' f').position := by
  unfold fixPosition
  rw [apply_ite Fragment.position, apply_ite Fragment.position]
  dsimp only
  rw [hp, hposw]

/-- Stabilization sends related fragments (equal up to volatile keys,
with keys either equal or both temporary) to observationally equal
fragments. -/
theorem stabilized_obs (opts : ParserOptions) (st st' : ParserState)
    (now now' : Nat) (f f' : Fragment)
    (hposw : st.position = st'.position)
    (ht : f.type = f'.type) (hr : f.rawContent = f'.rawContent)
    (hic : f.isComplete = f'.isComplete) (hp : f.position = f'.position)
    (hd : f.data.obs = f'.data.obs)
    (hkey : f.key = f'.key ∨
      (jsStartsWith f.key (strOf "temp-") = true ∧
        jsStartsWith f'.key (strOf "temp-") = true)) :
    (stabilizeKey opts st now (fixPosition st f)).obs =
      (stabilizeKey opts st' now' (fixPosition st' f')).obs := by
  apply fobs_ext
  · rw [stabilizeKey_isComplete, fixPosition_isComplete,
      stabilizeKey_isComplete, fixPosition_isComplete,
      stabilizeKey_key, stabilizeKey_key, fixPosition_isComplete,
      fixPosition_isComplete, fixPosition_key, fixPosition_key,
      fixPosition_rawContent, fixPosition_rawContent]
    cases hic1 : f.isComplete with
    | false =>
      have hic2 : f'.isComplete = false := by rw [← hic, hic1]
      rw [hic2]
      rfl
    | true =>
      have hic2 : f'.isComplete = true := by rw [← hic, hic1]
      rw [hic2]
      rw [if_pos (show (true = true) from rfl)]
      rw [if_pos (show (true = true) from rfl)]
      refine congrArg some ?_
      rcases hkey with hk | ⟨hk1, hk2⟩
      · rw [hk, hr]
      · rw [if_pos ⟨rfl, hk1⟩, if_pos ⟨rfl, hk2⟩, hr]
  · rw [stabilizeKey_type, fixPosition_type, stabilizeKey_type,
      fixPosition_type, ht]
  · rw [stabilizeKey_rawContent, fixPosition_rawContent,
      stabilizeKey_rawContent, fixPosition_rawContent, hr]
  · rw [stabilizeKey_isComplete, fixPosition_isComplete,
      stabilizeKey_isComplete, fixPosition_isComplete, hic]
  · rw [stabilizeKey_position, stabilizeKey_position]
    exact fixPosition_position_cong st st' f f' hposw hp
  · rw [stabilizeKey_data, fixPosition_data, stabilizeKey_data,
      fixPosition_data]
    exact hd


/-- Any-image over observation images agrees with any-image over the
fragments. -/
theorem any_image_map_obs (l : List Fragment) :
    (l.map Fragment.obs).any (fun o => o.type = FragmentType.image) =
      l.any (fun g => g.type = FragmentType.image) := by
  induction l with
  | nil => rfl
  | cons x xs ih =>
    simp only [List.map_cons, List.any_cons, ih]
    rfl

/-- The observation keeps the type field. -/
theorem obs_type_self (g : Fragment) : (Fragment.obs g).type = g.type := rfl

/-- Image splitting of observationally equal fragments in observationally
equal states yields observationally equal fragment lists. -/
theorem splitImages_cong (opts : ParserOptions) (st st' : ParserState)
    (now now' : Nat) (f f' : Fragment)
    (hposw : st.position = st'.position) (hlinew : st.line = st'.line)
    (hcolw : st.column = st'.column) (hobs : f.obs = f'.obs) :
    (splitImages opts st now f).map Fragment.obs =
      (splitImages opts st' now' f').map Fragment.obs := by
  have ht := obs_type f f' hobs
  have hr := obs_rawContent f f' hobs
  have hic := obs_isComplete f f' hobs
  unfold splitImages
  dsimp only
  rw [← hr, ← ht, ← hic]
  split
  · simp only [List.map_cons, List.map_nil, hobs]
  · rw [mapWithIndex_map, mapWithIndex_map]
    refine mapWithIndex_congrFun _ _ ?_ 0 _
    intro j p
    cases p with
    | text c =>
      exact createFragment_cong opts st st' now now' f.type c f.isComplete
        (FragmentData.paragraphData c false)
        (FragmentData.paragraphData c false) (some j) hposw hlinew hcolw rfl
    | image c alt srcv title =>
      exact createFragment_cong opts st st' now now' FragmentType.image c
        f.isComplete (FragmentData.imageData alt srcv title)
        (FragmentData.imageData alt srcv title) (some j) hposw hlinew hcolw rfl

/-- Confirming the open fragments of two related states (equal up to
volatile keys, the keys either equal or both temporary) yields
observationally equal states. -/
theorem finalizeCurrentFragment_cong (opts : ParserOptions)
    (st st' : ParserState) (rst rst' now now' : Nat) (f f' : Fragment)
    (hfrw : st.fragments.map Fragment.obs = st'.fragments.map Fragment.obs)
    (hposw : st.position = st'.position) (hlinew : st.line = st'.line)
    (hcolw : st.column = st'.column)
    (hc : st.currentFragment = some f) (hc' : st'.currentFragment = some f')
    (ht : f.type = f'.type) (hr : f.rawContent = f'.rawContent)
    (hic : f.isComplete = f'.isComplete) (hp : f.position = f'.position)
    (hd : f.data.obs = f'.data.obs)
    (hkey : f.key = f'.key ∨
      (jsStartsWith f.key (strOf "temp-") = true ∧
        jsStartsWith f'.key (strOf "temp-") = true)) :
    (finalizeCurrentFragment opts st rst now).1.obs =
      (finalizeCurrentFragment opts st' rst' now').1.obs := by
  have hf1 := stabilized_obs opts st st' now now' f f' hposw ht hr hic hp hd
    hkey
  have htyp : (stabilizeKey opts st now (fixPosition st f)).type =
      (stabilizeKey opts st' now' (fixPosition st' f')).type :=
    obs_type _ _ hf1
  have hsplit := splitImages_cong opts st st' now now' _ _ hposw hlinew hcolw
    hf1
  have hany : (splitImages opts st now
        (stabilizeKey opts st now (fixPosition st f))).any
        (fun g => g.type = FragmentType.image) =
      (splitImages opts st' now'
        (stabilizeKey opts st' now' (fixPosition st' f'))).any
        (fun g => g.type = FragmentType.image) := by
    rw [← any_image_map_obs, ← any_image_map_obs, hsplit]
  unfold finalizeCurrentFragment
  rw [hc, hc']
  dsimp only
  by_cases hcase :
      (stabilizeKey opts st now (fixPosition st f)).type =
        FragmentType.paragraph ∨
      (stabilizeKey opts st now (fixPosition st f)).type =
        FragmentType.blockquote
  · rw [if_pos hcase]
    rw [if_pos (show (stabilizeKey opts st' now' (fixPosition st' f')).type = FragmentType.paragraph ∨ (stabilizeKey opts st' now' (fixPosition st' f')).type = FragmentType.blockquote by rw [← htyp]; exact hcase)]
    apply sobs_ext
    · dsimp only
      rw [List.map_append, List.map_append, hfrw]
      rw [apply_ite (List.map Fragment.obs), apply_ite (List.map Fragment.obs)]
      rw [hany]
      split
      · rw [hsplit]
      · simp only [List.map_cons, List.map_nil, hf1]
    · rfl
    · exact hposw
    · exact hlinew
    · exact hcolw
  · rw [if_neg hcase]
    rw [if_neg (show ¬((stabilizeKey opts st' now' (fixPosition st' f')).type = FragmentType.paragraph ∨ (stabilizeKey opts st' now' (fixPosition st' f')).type = FragmentType.blockquote) by rw [← htyp]; exact hcase)]
    apply sobs_ext
    · dsimp only
      rw [List.map_append, List.map_append, hfrw]
      simp only [List.map_cons, List.map_nil, hf1]
    · rfl
    · exact hposw
    · exact hlinew
    · exact hcolw


/-- Observationally equal states hold observationally equal open
fragments. -/
theorem current_obs (st st' : ParserState) (f f' : Fragment)
    (hst : st.obs = st'.obs) (hc : st.currentFragment = some f)
    (hc' : st'.currentFragment = some f') : f.obs = f'.obs := by
  have h2 := sobs_current st st' hst
  rw [hc, hc'] at h2
  exact Option.some.inj h2

/-- `finalizeCodeBlock` only rewrites the open fragment's data, by
`finalizeCodeData`. -/
theorem finalizeCodeBlock_eq (st : ParserState) (f : Fragment)
    (hc : st.currentFragment = some f) :
    finalizeCodeBlock st =
      { st with currentFragment := some { f with data := finalizeCodeData f.rawContent f.data } } := by
  unfold finalizeCodeBlock finalizeCodeData
  rw [hc]
  dsimp only
  cases hd1 : f.data with
  | codeBlockData lang code recs => rfl
  | headingData a b =>
    dsimp only
    conv_rhs => rw [← hd1]
    exact (setCurrent_self st f hc).symm
  | paragraphData a b =>
    dsimp only
    conv_rhs => rw [← hd1]
    exact (setCurrent_self st f hc).symm
  | imageData a b c =>
    dsimp only
    conv_rhs => rw [← hd1]
    exact (setCurrent_self st f hc).symm
  | defaultData a b =>
    dsimp only
    conv_rhs => rw [← hd1]
    exact (setCurrent_self st f hc).symm

/-- `updateCodeBlockData` only rewrites the open fragment's data, by
`updateCodeData`. -/
theorem updateCodeBlockData_eq (opts : ParserOptions) (st : ParserState)
    (line : JSStr) (inc : Bool) (f : Fragment)
    (hc : st.currentFragment = some f) :
    updateCodeBlockData opts st line inc =
      { st with currentFragment := some { f with data := updateCodeData opts line inc f.data } } := by
  unfold updateCodeBlockData updateCodeData
  rw [hc]
  dsimp only
  cases hd1 : f.data with
  | codeBlockData lang code recs => rfl
  | headingData a b =>
    dsimp only
    conv_rhs => rw [← hd1]
    exact (setCurrent_self st f hc).symm
  | paragraphData a b =>
    dsimp only
    conv_rhs => rw [← hd1]
    exact (setCurrent_self st f hc).symm
  | imageData a b c =>
    dsimp only
    conv_rhs => rw [← hd1]
    exact (setCurrent_self st f hc).symm
  | defaultData a b =>
    dsimp only
    conv_rhs => rw [← hd1]
    exact (setCurrent_self st f hc).symm

/-- The recomputed codeblock data respects data observations. -/
theorem finalizeCodeData_cong (raw : JSStr) (d d' : FragmentData)
    (hd : d.obs = d'.obs) :
    (finalizeCodeData raw d).obs = (finalizeCodeData raw d').obs := by
  cases d <;> cases d' <;> simp_all [FragmentData.obs, finalizeCodeData]

/-- The updated codeblock data respects data observations. -/
theorem updateCodeData_cong (opts : ParserOptions) (line : JSStr)
    (inc : Bool) (d d' : FragmentData) (hd : d.obs = d'.obs) :
    (updateCodeData opts line inc d).obs =
      (updateCodeData opts line inc d').obs := by
  cases d <;> cases d' <;> simp_all [FragmentData.obs, updateCodeData]

/-- Advancing the cursor leaves the buffer unchanged. -/
theorem advancePosition_buffer (t : JSStr) (st : ParserState) :
    (advancePosition st t).buffer = st.buffer := by
  obtain ⟨p, li, co, h⟩ := advancePosition_shape t st
  rw [h]

/-- Confirming the open fragment leaves the buffer unchanged. -/
theorem finalizeCurrentFragment_buffer (opts : ParserOptions)
    (st : ParserState) (rst now : Nat) :
    (finalizeCurrentFragment opts st rst now).1.buffer = st.buffer := by
  unfold finalizeCurrentFragment
  cases hc : st.currentFragment with
  | none => rfl
  | some f =>
    dsimp only
    split <;> rfl


/-- Continuing a list block respects observations. -/
theorem continueList_cong (opts : ParserOptions) (st st' : ParserState)
    (rst rst' now now' : Nat) (line : JSStr) (inc : Bool) (f f' : Fragment)
    (hst : st.obs = st'.obs)
    (hc : st.currentFragment = some f) (hc' : st'.currentFragment = some f')
    (hkt : jsStartsWith f.key (strOf "temp-") = true)
    (hkt' : jsStartsWith f'.key (strOf "temp-") = true) :
    (continueList opts st rst now line inc).1.obs =
      (continueList opts st' rst' now' line inc).1.obs := by
  have hobs := current_obs st st' f f' hst hc hc'
  have ht := obs_type f f' hobs
  have hr := obs_rawContent f f' hobs
  have hic := obs_isComplete f f' hobs
  have hp := obs_position f f' hobs
  have hd := obs_dataObs f f' hobs
  unfold continueList
  rw [hc, hc']
  dsimp only
  by_cases hcl : jsTrimmedEmpty line = true ∧ (!inc) = true
  · rw [if_pos hcl, if_pos hcl]
    apply advancePosition_cong
    exact finalizeCurrentFragment_cong opts _ _ rst rst' now now'
      { f with isComplete := true } { f' with isComplete := true }
      (sobs_fragments st st' hst) (sobs_position st st' hst)
      (sobs_line st st' hst) (sobs_column st st' hst) rfl rfl
      ht hr rfl hp hd (Or.inr ⟨hkt, hkt'⟩)
  · rw [if_neg hcl, if_neg hcl]
    apply advancePosition_cong
    apply advancePosition_cong
    apply sobs_ext
    · exact sobs_fragments st st' hst
    · show some (Fragment.obs { f with rawContent := f.rawContent ++ '\n' :: line }) = some (Fragment.obs { f' with rawContent := f'.rawContent ++ '\n' :: line })
      refine congrArg some ?_
      apply fobs_ext
      · exact congrArg FragObs.keyObs hobs
      · exact ht
      · show f.rawContent ++ '\n' :: line = f'.rawContent ++ '\n' :: line
        rw [hr]
      · exact hic
      · exact hp
      · exact hd
    · exact sobs_position st st' hst
    · exact sobs_line st st' hst
    · exact sobs_column st st' hst

/-- Continuing a blockquote respects observations. -/
theorem continueBlockquote_cong (opts : ParserOptions) (st st' : ParserState)
    (rst rst' now now' : Nat) (line : JSStr) (inc : Bool) (f f' : Fragment)
    (hst : st.obs = st'.obs)
    (hc : st.currentFragment = some f) (hc' : st'.currentFragment = some f')
    (hkt : jsStartsWith f.key (strOf "temp-") = true)
    (hkt' : jsStartsWith f'.key (strOf "temp-") = true) :
    (continueBlockquote opts st rst now line inc).1.obs =
      (continueBlockquote opts st' rst' now' line inc).1.obs := by
  have hobs := current_obs st st' f f' hst hc hc'
  have ht := obs_type f f' hobs
  have hr := obs_rawContent f f' hobs
  have hic := obs_isComplete f f' hobs
  have hp := obs_position f f' hobs
  have hd := obs_dataObs f f' hobs
  unfold continueBlockquote
  rw [hc, hc']
  dsimp only
  by_cases hcl : jsTrimmedEmpty line = true ∧ (!inc) = true
  · rw [if_pos hcl, if_pos hcl]
    apply advancePosition_cong
    exact finalizeCurrentFragment_cong opts _ _ rst rst' now now'
      { f with isComplete := true } { f' with isComplete := true }
      (sobs_fragments st st' hst) (sobs_position st st' hst)
      (sobs_line st st' hst) (sobs_column st st' hst) rfl rfl
      ht hr rfl hp hd (Or.inr ⟨hkt, hkt'⟩)
  · rw [if_neg hcl, if_neg hcl]
    apply advancePosition_cong
    apply advancePosition_cong
    apply sobs_ext
    · exact sobs_fragments st st' hst
    · show some (Fragment.obs { f with rawContent := f.rawContent ++ '\n' :: line }) = some (Fragment.obs { f' with rawContent := f'.rawContent ++ '\n' :: line })
      refine congrArg some ?_
      apply fobs_ext
      · exact congrArg FragObs.keyObs hobs
      · exact ht
      · show f.rawContent ++ '\n' :: line = f'.rawContent ++ '\n' :: line
        rw [hr]
      · exact hic
      · exact hp
      · exact hd
    · exact sobs_position st st' hst
    · exact sobs_line st st' hst
    · exact sobs_column st st' hst

/-- Continuing a default block respects observations. -/
theorem continueDefaultBlock_cong (opts : ParserOptions)
    (st st' : ParserState)
    (rst rst' now now' : Nat) (line : JSStr) (inc : Bool) (f f' : Fragment)
    (hst : st.obs = st'.obs)
    (hc : st.currentFragment = some f) (hc' : st'.currentFragment = some f')
    (hkt : jsStartsWith f.key (strOf "temp-") = true)
    (hkt' : jsStartsWith f'.key (strOf "temp-") = true) :
    (continueDefaultBlock opts st rst now line inc).1.obs =
      (continueDefaultBlock opts st' rst' now' line inc).1.obs := by
  have hobs := current_obs st st' f f' hst hc hc'
  have ht := obs_type f f' hobs
  have hr := obs_rawContent f f' hobs
  have hic := obs_isComplete f f' hobs
  have hp := obs_position f f' hobs
  have hd := obs_dataObs f f' hobs
  unfold continueDefaultBlock
  rw [hc, hc']
  dsimp only
  by_cases hcl : jsTrimmedEmpty line = true ∧ (!inc) = true
  · rw [if_pos hcl, if_pos hcl]
    apply advancePosition_cong
    exact finalizeCurrentFragment_cong opts _ _ rst rst' now now'
      { f with isComplete := true } { f' with isComplete := true }
      (sobs_fragments st st' hst) (sobs_position st st' hst)
      (sobs_line st st' hst) (sobs_column st st' hst) rfl rfl
      ht hr rfl hp hd (Or.inr ⟨hkt, hkt'⟩)
  · rw [if_neg hcl, if_neg hcl]
    apply advancePosition_cong
    apply advancePosition_cong
    apply sobs_ext
    · exact sobs_fragments st st' hst
    · show some (Fragment.obs { f with rawContent := f.rawContent ++ '\n' :: line }) = some (Fragment.obs { f' with rawContent := f'.rawContent ++ '\n' :: line })
      refine congrArg some ?_
      apply fobs_ext
      · exact congrArg FragObs.keyObs hobs
      · exact ht
      · show f.rawContent ++ '\n' :: line = f'.rawContent ++ '\n' :: line
        rw [hr]
      · exact hic
      · exact hp
      · exact hd
    · exact sobs_position st st' hst
    · exact sobs_line st st' hst
    · exact sobs_column st st' hst


/-- Continuing a codeblock respects observations. -/
theorem continueCodeBlock_cong (opts : ParserOptions) (st st' : ParserState)
    (rst rst' now now' : Nat) (line : JSStr) (inc : Bool) (f f' : Fragment)
    (hst : st.obs = st'.obs)
    (hc : st.currentFragment = some f) (hc' : st'.currentFragment = some f')
    (hkt : jsStartsWith f.key (strOf "temp-") = true)
    (hkt' : jsStartsWith f'.key (strOf "temp-") = true) :
    (continueCodeBlock opts st rst now line inc).1.obs =
      (continueCodeBlock opts st' rst' now' line inc).1.obs := by
  have hobs := current_obs st st' f f' hst hc hc'
  have ht := obs_type f f' hobs
  have hr := obs_rawContent f f' hobs
  have hic := obs_isComplete f f' hobs
  have hp := obs_position f f' hobs
  have hd := obs_dataObs f f' hobs
  unfold continueCodeBlock
  rw [hc, hc']
  dsimp only
  by_cases hfence : line = strOf "```" ∧ (!inc) = true
  · rw [if_pos hfence, if_pos hfence]
    rw [finalizeCodeBlock_eq _ _ rfl, finalizeCodeBlock_eq _ _ rfl]
    apply advancePosition_cong
    refine finalizeCurrentFragment_cong opts _ _ rst rst' now now' _ _
      (sobs_fragments st st' hst) (sobs_position st st' hst)
      (sobs_line st st' hst) (sobs_column st st' hst) rfl rfl
      ht ?_ rfl hp ?_ (Or.inr ⟨hkt, hkt'⟩)
    · show f.rawContent ++ '\n' :: line = f'.rawContent ++ '\n' :: line
      rw [hr]
    · show (finalizeCodeData (f.rawContent ++ '\n' :: line) f.data).obs =
        (finalizeCodeData (f'.rawContent ++ '\n' :: line) f'.data).obs
      have h9 : f'.rawContent ++ '\n' :: line =
          f.rawContent ++ '\n' :: line := by rw [hr]
      rw [h9]
      exact finalizeCodeData_cong _ f.data f'.data hd
  · rw [if_neg hfence, if_neg hfence]
    rw [updateCodeBlockData_eq _ _ _ _ _ rfl, updateCodeBlockData_eq _ _ _ _ _ rfl]
    apply advancePosition_cong
    apply sobs_ext
    · exact sobs_fragments st st' hst
    · show some (Fragment.obs { f with rawContent := (if !jsEndsWith f.rawContent '\n' then f.rawContent ++ ['\n'] else f.rawContent) ++ line, data := updateCodeData opts line inc f.data }) = some (Fragment.obs { f' with rawContent := (if !jsEndsWith f'.rawContent '\n' then f'.rawContent ++ ['\n'] else f'.rawContent) ++ line, data := updateCodeData opts line inc f'.data })
      refine congrArg some ?_
      apply fobs_ext
      · exact congrArg FragObs.keyObs hobs
      · exact ht
      · show (if !jsEndsWith f.rawContent '\n' then f.rawContent ++ ['\n'] else f.rawContent) ++ line = (if !jsEndsWith f'.rawContent '\n' then f'.rawContent ++ ['\n'] else f'.rawContent) ++ line
        rw [hr]
      · exact hic
      · exact hp
      · exact updateCodeData_cong opts line inc f.data f'.data hd
    · exact sobs_position st st' hst
    · exact sobs_line st st' hst
    · exact sobs_column st st' hst

/-- Continuing any open fragment respects observations. -/
theorem continueFragment_cong (opts : ParserOptions) (st st' : ParserState)
    (rst rst' now now' : Nat) (line : JSStr) (inc : Bool) (f f' : Fragment)
    (hst : st.obs = st'.obs)
    (hc : st.currentFragment = some f) (hc' : st'.currentFragment = some f')
    (hkt : jsStartsWith f.key (strOf "temp-") = true)
    (hkt' : jsStartsWith f'.key (strOf "temp-") = true) :
    (continueFragment opts st rst now line inc).1.obs =
      (continueFragment opts st' rst' now' line inc).1.obs := by
  have hobs := current_obs st st' f f' hst hc hc'
  have ht := obs_type f f' hobs
  unfold continueFragment
  rw [hc, hc']
  dsimp only
  rw [← ht]
  cases f.type with
  | codeblock =>
    exact continueCodeBlock_cong opts st st' rst rst' now now' line inc f f'
      hst hc hc' hkt hkt'
  | list =>
    exact continueList_cong opts st st' rst rst' now now' line inc f f'
      hst hc hc' hkt hkt'
  | blockquote =>
    exact continueBlockquote_cong opts st st' rst rst' now now' line inc f f'
      hst hc hc' hkt hkt'
  | heading =>
    exact continueDefaultBlock_cong opts st st' rst rst' now now' line inc f f'
      hst hc hc' hkt hkt'
  | paragraph =>
    exact continueDefaultBlock_cong opts st st' rst rst' now now' line inc f f'
      hst hc hc' hkt hkt'
  | image =>
    exact continueDefaultBlock_cong opts st st' rst rst' now now' line inc f f'
      hst hc hc' hkt hkt'
  | thematicBreak =>
    exact continueDefaultBlock_cong opts st st' rst rst' now now' line inc f f'
      hst hc hc' hkt hkt'
  | listItem =>
    exact continueDefaultBlock_cong opts st st' rst rst' now now' line inc f f'
      hst hc hc' hkt hkt'
  | html =>
    exact continueDefaultBlock_cong opts st st' rst rst' now now' line inc f f'
      hst hc hc' hkt hkt'
  | table =>
    exact continueDefaultBlock_cong opts st st' rst rst' now now' line inc f f'
      hst hc hc' hkt hkt'
  | incomplete =>
    exact continueDefaultBlock_cong opts st st' rst rst' now now' line inc f f'
      hst hc hc' hkt hkt'


/-- Starting a fragment from a line, with no open fragment, respects
observations. -/
theorem startNewFragmentFromLine_cong (opts : ParserOptions)
    (st st' : ParserState) (rst rst' now now' : Nat) (line : JSStr)
    (inc : Bool) (hst : st.obs = st'.obs)
    (hn : st.currentFragment = none) (hn' : st'.currentFragment = none) :
    (startNewFragmentFromLine opts st rst now line inc).1.obs =
      (startNewFragmentFromLine opts st' rst' now' line inc).1.obs := by
  have hfrag := createFragment_cong opts st st' now now'
    (((findBlockPattern line).map BlockPattern.type).getD
      FragmentType.paragraph) line
    ((((findBlockPattern line).map BlockPattern.isSingleLine).getD false) &&
      !inc)
    (createInitialData rst
      (((findBlockPattern line).map BlockPattern.type).getD
        FragmentType.paragraph) line).1
    (createInitialData rst'
      (((findBlockPattern line).map BlockPattern.type).getD
        FragmentType.paragraph) line).1
    none (sobs_position st st' hst) (sobs_line st st' hst)
    (sobs_column st st' hst) (createInitialData_obs rst rst' _ line)
  have hsplit := splitImages_cong opts st st' now now' _ _
    (sobs_position st st' hst) (sobs_line st st' hst)
    (sobs_column st st' hst) hfrag
  unfold startNewFragmentFromLine
  by_cases hblank : jsTrimmedEmpty line = true
  · rw [if_pos hblank, if_pos hblank]
    rw [hn, hn']
    rw [if_neg (by simp), if_neg (by simp)]
    dsimp only
    by_cases hinc : (!inc) = true
    · rw [if_pos hinc, if_pos hinc]
      exact advancePosition_cong _ _ _ (advancePosition_cong _ _ _ hst)
    · rw [if_neg hinc, if_neg hinc]
      exact advancePosition_cong _ _ _ hst
  · rw [if_neg hblank, if_neg hblank]
    dsimp only
    split
    · rename_i hsc
      apply advancePosition_cong
      apply advancePosition_cong
      split
      · rename_i hpb
        dsimp only
        rw [apply_ite ParserState.obs, apply_ite ParserState.obs]
        rw [show (splitImages opts st now (createFragment opts st now (((findBlockPattern line).map BlockPattern.type).getD FragmentType.paragraph) line ((((findBlockPattern line).map BlockPattern.isSingleLine).getD false) && !inc) (createInitialData rst (((findBlockPattern line).map BlockPattern.type).getD FragmentType.paragraph) line).1 none)).any (fun g => g.type = FragmentType.image) = (splitImages opts st' now' (createFragment opts st' now' (((findBlockPattern line).map BlockPattern.type).getD FragmentType.paragraph) line ((((findBlockPattern line).map BlockPattern.isSingleLine).getD false) && !inc) (createInitialData rst' (((findBlockPattern line).map BlockPattern.type).getD FragmentType.paragraph) line).1 none)).any (fun g => g.type = FragmentType.image) from by rw [← any_image_map_obs, ← any_image_map_obs, hsplit]]
        split
        · apply sobs_ext
          · dsimp only
            rw [List.map_append, List.map_append,
              sobs_fragments st st' hst, hsplit]
          · exact sobs_current st st' hst
          · exact sobs_position st st' hst
          · exact sobs_line st st' hst
          · exact sobs_column st st' hst
        · apply sobs_ext
          · dsimp only
            rw [List.map_append, List.map_append,
              sobs_fragments st st' hst]
            simp only [List.map_cons, List.map_nil, hfrag]
          · exact sobs_current st st' hst
          · exact sobs_position st st' hst
          · exact sobs_line st st' hst
          · exact sobs_column st st' hst
      · rename_i hpb
        dsimp only
        apply sobs_ext
        · dsimp only
          rw [List.map_append, List.map_append, sobs_fragments st st' hst]
          simp only [List.map_cons, List.map_nil, hfrag]
        · exact sobs_current st st' hst
        · exact sobs_position st st' hst
        · exact sobs_line st st' hst
        · exact sobs_column st st' hst
    · rename_i hsc
      dsimp only
      by_cases hinc : (!inc) = true
      · rw [if_pos hinc, if_pos hinc]
        apply advancePosition_cong
        apply advancePosition_cong
        apply sobs_ext
        · exact sobs_fragments st st' hst
        · exact congrArg some hfrag
        · exact sobs_position st st' hst
        · exact sobs_line st st' hst
        · exact sobs_column st st' hst
      · rw [if_neg hinc, if_neg hinc]
        apply advancePosition_cong
        apply sobs_ext
        · exact sobs_fragments st st' hst
        · exact congrArg some hfrag
        · exact sobs_position st st' hst
        · exact sobs_line st st' hst
        · exact sobs_column st st' hst


/-- A single loop step respects observations, for states whose open
fragments satisfy the temporary-key invariant. -/
theorem processLine_cong (opts : ParserOptions) (now now' : Nat)
    (st st' : ParserState) (rst rst' : Nat) (line : JSStr) (flag : Bool)
    (hst : st.obs = st'.obs) (hcur : InvCur st) (hcur' : InvCur st') :
    (processLine opts now (st, rst) (line, flag)).1.obs =
      (processLine opts now' (st', rst') (line, flag)).1.obs := by
  unfold processLine
  dsimp only
  cases hcc : st.currentFragment with
  | none =>
    have hcc' : st'.currentFragment = none := by
      have h2 := sobs_current st st' hst
      rw [hcc] at h2
      cases hcc2 : st'.currentFragment with
      | none => rfl
      | some g => rw [hcc2] at h2; exact Option.noConfusion h2
    rw [hcc']
    exact startNewFragmentFromLine_cong opts st st' rst rst' now now' line
      (!flag) hst hcc hcc'
  | some f =>
    obtain ⟨f', hcc', hobs⟩ :
        ∃ f', st'.currentFragment = some f' ∧ f.obs = f'.obs := by
      have h2 := sobs_current st st' hst
      rw [hcc] at h2
      cases hcc2 : st'.currentFragment with
      | none => rw [hcc2] at h2; exact Option.noConfusion h2
      | some g => rw [hcc2] at h2; exact ⟨g, rfl, Option.some.inj h2⟩
    rw [hcc']
    dsimp only
    have ht := obs_type f f' hobs
    have hsceq : shouldContinueFragment f line flag =
        shouldContinueFragment f' line flag := by
      unfold shouldContinueFragment
      rw [ht]
    by_cases hcont : shouldContinueFragment f line flag = true
    · rw [if_pos hcont]
      rw [if_pos (show shouldContinueFragment f' line flag = true by rw [← hsceq]; exact hcont)]
      exact continueFragment_cong opts st st' rst rst' now now' line (!flag)
        f f' hst hcc hcc' (hcur f hcc).2 (hcur' f' hcc').2
    · rw [if_neg hcont]
      rw [if_neg (show ¬(shouldContinueFragment f' line flag = true) by rw [← hsceq]; exact hcont)]
      by_cases hbf : jsTrimmedEmpty line = true ∧ flag = true
      · rw [if_pos hbf]
        rw [if_pos hbf]
        have hrobs :=
          finalizeCurrentFragment_cong opts
            { st with currentFragment := some { f with isComplete := true } }
            { st' with currentFragment := some { f' with isComplete := true } }
            rst rst' now now' { f with isComplete := true }
            { f' with isComplete := true }
            (sobs_fragments st st' hst) (sobs_position st st' hst)
            (sobs_line st st' hst) (sobs_column st st' hst) rfl rfl
            (obs_type f f' hobs) (obs_rawContent f f' hobs) rfl
            (obs_position f f' hobs) (obs_dataObs f f' hobs)
            (Or.inr ⟨(hcur f hcc).2, (hcur' f' hcc').2⟩)
        rw [if_neg (show ¬((!jsTrimmedEmpty line) = true) by rw [hbf.1]; simp)]
        rw [if_neg (show ¬((!jsTrimmedEmpty line) = true) by rw [hbf.1]; simp)]
        exact hrobs
      · rw [if_neg hbf]
        rw [if_neg hbf]
        have hrobs :=
          finalizeCurrentFragment_cong opts st st' rst rst' now now' f f'
            (sobs_fragments st st' hst) (sobs_position st st' hst)
            (sobs_line st st' hst) (sobs_column st st' hst) hcc hcc'
            (obs_type f f' hobs) (obs_rawContent f f' hobs)
            (obs_isComplete f f' hobs) (obs_position f f' hobs)
            (obs_dataObs f f' hobs)
            (Or.inr ⟨(hcur f hcc).2, (hcur' f' hcc').2⟩)
        by_cases hnb : (!jsTrimmedEmpty line) = true
        · rw [if_pos hnb]
          rw [if_pos hnb]
          exact startNewFragmentFromLine_cong opts _ _ _ _ now now' line
            (!flag) hrobs (finalizeCurrentFragment_clears opts st rst now f hcc)
            (finalizeCurrentFragment_clears opts st' rst' now' f' hcc')
        · rw [if_neg hnb]
          rw [if_neg hnb]
          exact hrobs


/-- Continuing a list block leaves the buffer unchanged. -/
theorem continueList_buffer (opts : ParserOptions) (st : ParserState)
    (rst now : Nat) (line : JSStr) (inc : Bool) :
    (continueList opts st rst now line inc).1.buffer = st.buffer := by
  unfold continueList
  cases hc : st.currentFragment with
  | none => rfl
  | some f =>
    dsimp only
    split
    · rw [advancePosition_buffer, finalizeCurrentFragment_buffer]
    · rw [advancePosition_buffer, advancePosition_buffer]

/-- Continuing a blockquote leaves the buffer unchanged. -/
theorem continueBlockquote_buffer (opts : ParserOptions) (st : ParserState)
    (rst now : Nat) (line : JSStr) (inc : Bool) :
    (continueBlockquote opts st rst now line inc).1.buffer = st.buffer := by
  unfold continueBlockquote
  cases hc : st.currentFragment with
  | none => rfl
  | some f =>
    dsimp only
    split
    · rw [advancePosition_buffer, finalizeCurrentFragment_buffer]
    · rw [advancePosition_buffer, advancePosition_buffer]

/-- Continuing a default block leaves the buffer unchanged. -/
theorem continueDefaultBlock_buffer (opts : ParserOptions)
    (st : ParserState) (rst now : Nat) (line : JSStr) (inc : Bool) :
    (continueDefaultBlock opts st rst now line inc).1.buffer = st.buffer := by
  unfold continueDefaultBlock
  cases hc : st.currentFragment with
  | none => rfl
  | some f =>
    dsimp only
    split
    · rw [advancePosition_buffer, finalizeCurrentFragment_buffer]
    · rw [advancePosition_buffer, advancePosition_buffer]

/-- Continuing a codeblock leaves the buffer unchanged. -/
theorem continueCodeBlock_buffer (opts : ParserOptions) (st : ParserState)
    (rst now : Nat) (line : JSStr) (inc : Bool) :
    (continueCodeBlock opts st rst now line inc).1.buffer = st.buffer := by
  unfold continueCodeBlock
  cases hc : st.currentFragment with
  | none => rfl
  | some f =>
    dsimp only
    split
    · rw [advancePosition_buffer, finalizeCurrentFragment_buffer,
        finalizeCodeBlock_eq _ _ rfl]
    · rw [advancePosition_buffer, updateCodeBlockData_eq _ _ _ _ _ rfl]

/-- Continuing any fragment leaves the buffer unchanged. -/
theorem continueFragment_buffer (opts : ParserOptions) (st : ParserState)
    (rst now : Nat) (line : JSStr) (inc : Bool) :
    (continueFragment opts st rst now line inc).1.buffer = st.buffer := by
  unfold continueFragment
  cases hc : st.currentFragment with
  | none => rfl
  | some f =>
    dsimp only
    split
    · exact continueCodeBlock_buffer opts st rst now line inc
    · exact continueList_buffer opts st rst now line inc
    · exact continueBlockquote_buffer opts st rst now line inc
    · exact continueDefaultBlock_buffer opts st rst now line inc

/-- Starting a fragment from a line leaves the buffer unchanged. -/
theorem startNewFragmentFromLine_buffer (opts : ParserOptions)
    (st : ParserState) (rst now : Nat) (line : JSStr) (inc : Bool) :
    (startNewFragmentFromLine opts st rst now line inc).1.buffer =
      st.buffer := by
  unfold startNewFragmentFromLine
  split
  · split
    · exact continueFragment_buffer opts st rst now line inc
    · dsimp only
      split
      · rw [advancePosition_buffer, advancePosition_buffer]
      · rw [advancePosition_buffer]
  · dsimp only
    split
    · dsimp only
      rw [advancePosition_buffer, advancePosition_buffer]
      split
      · split <;> rfl
      · rfl
    · dsimp only
      split
      · rw [advancePosition_buffer, advancePosition_buffer]
      · rw [advancePosition_buffer]

/-- A loop step leaves the buffer unchanged. -/
theorem processLine_buffer (opts : ParserOptions) (now : Nat)
    (acc : ParserState × Nat) (lf : JSStr × Bool) :
    (processLine opts now acc lf).1.buffer = acc.1.buffer := by
  unfold processLine
  dsimp only
  cases hcc : acc.1.currentFragment with
  | none => exact startNewFragmentFromLine_buffer opts acc.1 acc.2 now lf.1 (!lf.2)
  | some f =>
    dsimp only
    split
    · exact continueFragment_buffer opts acc.1 acc.2 now lf.1 (!lf.2)
    · split
      · rw [startNewFragmentFromLine_buffer, finalizeCurrentFragment_buffer]
        split <;> rfl
      · rw [finalizeCurrentFragment_buffer]
        split <;> rfl

/-- Folding loop steps leaves the buffer unchanged. -/
theorem foldl_processLine_buffer (opts : ParserOptions) (now : Nat)
    (lfs : List (JSStr × Bool)) :
    ∀ acc, (lfs.foldl (processLine opts now) acc).1.buffer =
      acc.1.buffer := by
  induction lfs with
  | nil => intro acc; rfl
  | cons p ps ih =>
    intro acc
    exact (ih _).trans (processLine_buffer opts now acc p)

/-- Re-parsing keeps the buffer. -/
theorem parseIncremental_buffer (opts : ParserOptions) (st : ParserState)
    (rst now : Nat) :
    (parseIncremental opts st rst now).1.buffer = st.buffer := by
  unfold parseIncremental
  dsimp only
  exact foldl_processLine_buffer opts now _ _

/-- Folding loop steps respects observations given the invariants on both
sides. -/
theorem foldl_processLine_cong (opts : ParserOptions) (now now' : Nat)
    (lines : List JSStr) (b : Bool) :
    ∀ (st st' : ParserState) (rst rst' : Nat),
    st.obs = st'.obs →
    InvFrags opts st → InvCur st → InvCurType st →
    InvFrags opts st' → InvCur st' → InvCurType st' →
    ((withFlags lines b).foldl (processLine opts now) (st, rst)).1.obs =
      ((withFlags lines b).foldl (processLine opts now') (st', rst')).1.obs := by
  induction lines with
  | nil => intro st st' rst rst' h _ _ _ _ _ _; exact h
  | cons l ls ih =>
    cases ls with
    | nil =>
      intro st st' rst rst' h hf1 hc1 ht1 hf2 hc2 ht2
      exact processLine_cong opts now now' st st' rst rst' l b h hc1 hc2
    | cons l2 ls2 =>
      intro st st' rst rst' h hf1 hc1 ht1 hf2 hc2 ht2
      have hstep := processLine_cong opts now now' st st' rst rst' l true h
        hc1 hc2
      have hi1 := processLine_inv opts now st rst l true hf1 hc1 ht1
      have hi2 := processLine_inv opts now' st' rst' l true hf2 hc2 ht2
      have hrec := ih (processLine opts now (st, rst) (l, true)).1
        (processLine opts now' (st', rst') (l, true)).1
        (processLine opts now (st, rst) (l, true)).2
        (processLine opts now' (st', rst') (l, true)).2
        hstep hi1.1 hi1.2.1 (hi1.2.2 rfl) hi2.1 hi2.2.1 (hi2.2.2 rfl)
      rw [Prod.mk.eta, Prod.mk.eta] at hrec
      exact hrec

/-- Re-parsing states with equal buffers yields observationally equal
states, whatever the wall clock and regex scan state. -/
theorem parseIncremental_cong (opts : ParserOptions) (st st' : ParserState)
    (rst rst' now now' : Nat) (hbuf : st.buffer = st'.buffer) :
    (parseIncremental opts st rst now).1.obs =
      (parseIncremental opts st' rst' now').1.obs := by
  unfold parseIncremental
  dsimp only
  rw [hbuf]
  exact foldl_processLine_cong opts now now' (jsSplit '\n' st'.buffer)
    (jsEndsWith st'.buffer '\n') _ _ rst rst' rfl
    (fun g hg => absurd hg (List.not_mem_nil g)) (fun g hg => by cases hg)
    (fun g hg => by cases hg) (fun g hg => absurd hg (List.not_mem_nil g))
    (fun g hg => by cases hg) (fun g hg => by cases hg)


/-- Concatenation of a chunk sequence, one step. -/
theorem chunksText_cons (cn : JSStr × Nat) (l : List (JSStr × Nat)) :
    chunksText (cn :: l) = cn.1 ++ chunksText l := rfl

/-- A fold of `appendChunk` steps either performed no parse at all (all
chunks empty) or ends in a re-parse of a buffer extending the initial one
by the concatenated chunks. -/
theorem foldAppend_shape (opts : ParserOptions) :
    ∀ (l : List (JSStr × Nat)) (acc : ParserState × Nat),
    l.foldl (fun a cn => appendChunk opts a cn.1 cn.2) acc = acc ∧
      chunksText l = [] ∨
    ∃ st rst now, l.foldl (fun a cn => appendChunk opts a cn.1 cn.2) acc =
        parseIncremental opts st rst now ∧
      st.buffer = acc.1.buffer ++ chunksText l ∧ chunksText l ≠ [] := by
  intro l
  induction l with
  | nil =>
    intro acc
    left
    exact ⟨rfl, rfl⟩
  | cons cn l ih =>
    intro acc
    by_cases hcn : cn.1 = []
    · have hstep : appendChunk opts acc cn.1 cn.2 = acc := by
        unfold appendChunk; rw [if_pos hcn]
      rcases ih acc with ⟨hfold, hct⟩ | ⟨st1, rst1, now1, hfold, hbuf, hne⟩
      · left
        constructor
        · rw [List.foldl_cons]
          rw [hstep]
          exact hfold
        · rw [chunksText_cons, hcn, hct]
          rfl
      · right
        refine ⟨st1, rst1, now1, ?_, ?_, ?_⟩
        · rw [List.foldl_cons]
          rw [hstep]
          exact hfold
        · rw [chunksText_cons, hcn]
          simpa using hbuf
        · rw [chunksText_cons, hcn]
          simpa using hne
    · have hstep : appendChunk opts acc cn.1 cn.2 =
          parseIncremental opts { acc.1 with buffer := acc.1.buffer ++ cn.1 }
            acc.2 cn.2 := by
        unfold appendChunk; rw [if_neg hcn]
      rcases ih (appendChunk opts acc cn.1 cn.2) with
        ⟨hfold, hct⟩ | ⟨st1, rst1, now1, hfold, hbuf, hne⟩
      · right
        refine ⟨{ acc.1 with buffer := acc.1.buffer ++ cn.1 }, acc.2, cn.2,
          ?_, ?_, ?_⟩
        · rw [List.foldl_cons]
          rw [hfold, hstep]
        · show acc.1.buffer ++ cn.1 = acc.1.buffer ++ chunksText (cn :: l)
          rw [chunksText_cons, hct]
          simp
        · rw [chunksText_cons, hct]
          simpa using hcn
      · right
        refine ⟨st1, rst1, now1, ?_, ?_, ?_⟩
        · rw [List.foldl_cons]
          exact hfold
        · have hb2 : (appendChunk opts acc cn.1 cn.2).1.buffer =
              acc.1.buffer ++ cn.1 := by
            rw [hstep, parseIncremental_buffer]
          rw [hbuf, hb2, chunksText_cons, List.append_assoc]
        · rw [chunksText_cons]
          intro hx
          exact hcn (List.append_eq_nil.mp hx).1

/-- C10 (amended): chunking invariance up to the volatile observables —
two chunk sequences with equal concatenations leave a fresh parser with
the same buffer and observationally equal states: same fragments up to
temporary-key text and the hasInlineImages bit, same open fragment, same
cursors. -/
theorem C10_chunking_invariance_amended (opts : ParserOptions)
    (l1 l2 : List (JSStr × Nat)) (h : chunksText l1 = chunksText l2) :
    (runChunks opts l1).1.buffer = (runChunks opts l2).1.buffer ∧
    (runChunks opts l1).1.obs = (runChunks opts l2).1.obs := by
  have h1 := foldAppend_shape opts l1 (initialState, 0)
  have h2 := foldAppend_shape opts l2 (initialState, 0)
  rcases h1 with ⟨he1, hc1⟩ | ⟨st1, rst1, now1, he1, hb1, hne1⟩ <;>
    rcases h2 with ⟨he2, hc2⟩ | ⟨st2, rst2, now2, he2, hb2, hne2⟩
  · unfold runChunks
    rw [he1, he2]
    exact ⟨rfl, rfl⟩
  · exact absurd (show chunksText l2 = [] by rw [← h]; exact hc1) hne2
  · exact absurd (show chunksText l1 = [] by rw [h]; exact hc2) hne1
  · have hbeq : st1.buffer = st2.buffer := by
      rw [hb1, hb2, h]
    unfold runChunks
    rw [he1, he2]
    constructor
    · rw [parseIncremental_buffer, parseIncremental_buffer, hbeq]
    · exact parseIncremental_cong opts st1 st2 rst1 rst2 now1 now2 hbeq

/-- C10 witness: "hel"+"lo\n" and "hello\n" leave a fresh parser with the
same buffer and the same observable state. -/
theorem C10_witness :
    chunksText [(strOf "hel", 1), (strOf "lo\n", 2)] =
      chunksText [(strOf "hello\n", 3)] ∧
    (runChunks defaultOptions [(strOf "hel", 1), (strOf "lo\n", 2)]).1.buffer =
      (runChunks defaultOptions [(strOf "hello\n", 3)]).1.buffer ∧
    (runChunks defaultOptions [(strOf "hel", 1), (strOf "lo\n", 2)]).1.obs =
      (runChunks defaultOptions [(strOf "hello\n", 3)]).1.obs :=
  have h := C10_chunking_invariance_amended defaultOptions
    [(strOf "hel", 1), (strOf "lo\n", 2)] [(strOf "hello\n", 3)] (by decide)
  ⟨by decide, h.1, h.2⟩

end Fluxmark












